import Mathlib

/-!
# Verification of the floating-ui react-dom-interactions coordination engine

Shallow embedding of the interaction-coordination code in
`src/packages/react-dom-interactions/dist/floating-ui.react-dom-interactions.umd.js`:
the floating node tree (`getChildren` / `getAncestors`), the dismiss
coordinator (`useDismiss` listeners), the prop-getter merge engine
(`mergeProps`), the safe-polygon hover geometry (`safePolygon` /
`isPointInPolygon`), list navigation (`findNonDisabledIndex` and the
main-orientation key handler of `useListNavigation`), typeahead
(`useTypeahead`), and the `aria-hidden` ledger (`hideOthers`).

JavaScript objects become Lean structures; the unbounded `while` loops of
`getChildren`, `getAncestors` and `findNonDisabledIndex` are embedded with an
explicit fuel argument together with a completion flag; theorems show the
chosen fuel always suffices on the inputs the claims quantify over.
Numbers are `Int` (list indices) and `ℚ` (pointer geometry; every source
computation involved is exact in binary floating point on the claimed
inputs, so `ℚ` is a faithful model there).
-/

/-! ## Floating node tree

`FloatingNode` models `{id, parentId, context}`; only the `open` flag of the
attached context is consulted by the tree queries, so `context` is
`Option Bool` (`none` = no context attached yet). -/

structure FloatingNode where
  id : String
  parentId : Option String
  context : Option Bool
deriving DecidableEq, Repr

/-- `node.context?.open` truthiness. -/
def FloatingNode.ctxOpen (n : FloatingNode) : Bool :=
  n.context.getD false

/-- One pass of the `while` loop body of `getChildren`:
`nodes.filter(node => currentChildren.some(n => node.parentId === n.id && node.context?.open))`. -/
def childLevel (nodes : List FloatingNode) (currentChildren : List FloatingNode) :
    List FloatingNode :=
  nodes.filter fun node =>
    currentChildren.any fun n => node.parentId == some n.id && node.ctxOpen

/-- The `while (currentChildren.length)` loop of `getChildren`, with fuel.
Returns the concatenation of the successive levels together with a flag that
is `true` exactly when the loop reached its exit condition (empty level)
before the fuel ran out. -/
def childLoop (nodes : List FloatingNode) : Nat → List FloatingNode →
    List FloatingNode × Bool
  | _, [] => ([], true)
  | 0, _ :: _ => ([], false)
  | fuel + 1, current =>
    let next := childLevel nodes current
    let rest := childLoop nodes fuel next
    (next ++ rest.1, rest.2)

/-- `getChildren(nodes, id)`: open children of `id`, then the transitive
closure through open nodes.  `id : Option String` because the call sites pass
a possibly-undefined `nodeId` and compare it with `===` against `parentId`.
Fuel `nodes.length` is shown sufficient for every acyclic node list. -/
def getChildren (nodes : List FloatingNode) (id : Option String) :
    List FloatingNode :=
  let allChildren := nodes.filter fun node =>
    node.parentId == id && node.ctxOpen
  allChildren ++ (childLoop nodes nodes.length allChildren).1

/-- Whether the `getChildren` loop reaches its exit condition within the
fuel budget (termination of the source's unbounded loop). -/
def getChildrenTerminates (nodes : List FloatingNode) (id : Option String) :
    Bool :=
  (childLoop nodes nodes.length
    (nodes.filter fun node => node.parentId == id && node.ctxOpen)).2

/-- `nodes.find(node => node.id === pid)`. -/
def findNode (nodes : List FloatingNode) (pid : String) : Option FloatingNode :=
  nodes.find? fun n => n.id == pid

/-- The `while (currentParentId)` loop of `getAncestors`, with fuel: walks
`parentId` links upward collecting each found node, flag `true` when the
loop exited because the parent id chain ended (or a lookup failed) rather
than because fuel ran out. -/
def ancLoop (nodes : List FloatingNode) : Nat → Option String →
    List FloatingNode × Bool
  | _, none => ([], true)
  | 0, some _ => ([], false)
  | fuel + 1, some pid =>
    match findNode nodes pid with
    | none => ([], true)
    | some cur =>
      let rest := ancLoop nodes fuel cur.parentId
      (cur :: rest.1, rest.2)

/-- `getAncestors(nodes, id)`: chain of parent nodes of `id` up to the root. -/
def getAncestors (nodes : List FloatingNode) (id : String) :
    List FloatingNode :=
  (ancLoop nodes (nodes.length + 1)
    ((findNode nodes id).bind (·.parentId))).1

/-- Whether the `getAncestors` loop reaches its exit condition within the
fuel budget (termination of the source's unbounded loop). -/
def getAncestorsTerminates (nodes : List FloatingNode) (id : String) : Bool :=
  (ancLoop nodes (nodes.length + 1)
    ((findNode nodes id).bind (·.parentId))).2

/-! Spec-side relations used to state exactness of the tree queries. -/

/-- `b` is the parent of `a` via a `parentId` link inside `nodes`. -/
def parentRel (nodes : List FloatingNode) (a b : FloatingNode) : Prop :=
  a ∈ nodes ∧ b ∈ nodes ∧ a.parentId = some b.id

/-- The forest precondition: no node of the list is its own transitive
ancestor through `parentId` links. -/
def AcyclicNodes (nodes : List FloatingNode) : Prop :=
  ∀ n, ¬ Relation.TransGen (parentRel nodes) n n

/-- Transitive open descendants of `id`: reachable from `id` through chains
of nodes that all report `context.open === true`. -/
inductive OpenDesc (nodes : List FloatingNode) (id : Option String) :
    FloatingNode → Prop
  | base {n : FloatingNode} : n ∈ nodes → n.parentId = id → n.ctxOpen = true →
      OpenDesc nodes id n
  | step {p n : FloatingNode} : OpenDesc nodes id p → n ∈ nodes →
      n.parentId = some p.id → n.ctxOpen = true → OpenDesc nodes id n

/-- The deterministic parent lookup `nodes.find(node => node.id === n.parentId)`. -/
def parentNode (nodes : List FloatingNode) (n : FloatingNode) :
    Option FloatingNode :=
  n.parentId.bind (findNode nodes)

/-- One ancestor-walk step: `b` is the node the `getAncestors` loop visits
after `a`. -/
def parentStep (nodes : List FloatingNode) (a b : FloatingNode) : Prop :=
  parentNode nodes a = some b

/-- A sufficient, finitely checkable condition for `AcyclicNodes`: a depth
measure that strictly drops along every `parentId` link. -/
def DepthMeasure (nodes : List FloatingNode) (d : String → Nat) : Prop :=
  ∀ a ∈ nodes, ∀ b ∈ nodes, a.parentId = some b.id → d b.id < d a.id

/-- Reachability along the deterministic parent lookup, starting at the node
the walk begins from. -/
def ancReachable (nodes : List FloatingNode) (o : Option String)
    (n : FloatingNode) : Prop :=
  ∃ pid m, o = some pid ∧ findNode nodes pid = some m ∧
    Relation.ReflTransGen (parentStep nodes) m n

/-! ## Dismiss coordinator (`useDismiss`)

The three document-level listeners installed while `open && enabled`,
reduced to the decision whether `onOpenChange(false)` is invoked.  DOM
containment tests (`isEventTargetWithin`) are abstracted as boolean
parameters; the tree handle `tree` becomes `hasTree`. -/

/-- Decision of the `useDismiss` Escape key-down listener: `true` iff the
listener invokes `onOpenChange(false)`. -/
def escapeKeyDismisses (nodes : List FloatingNode) (nodeId : Option String)
    (hasTree bubbles : Bool) : Bool :=
  !(!bubbles && hasTree && !(getChildren nodes nodeId).isEmpty)

/-- Decision of the `useDismiss` outside pointer-down listener: `true` iff
the listener invokes `onOpenChange(false)`.  `targetInChildFloating n`
models `isEventTargetWithin(event, n.context?.refs.floating.current)`. -/
def outsidePointerDownDismisses (nodes : List FloatingNode)
    (nodeId : Option String) (hasTree bubbles : Bool)
    (targetInFloating targetInReference : Bool)
    (targetInChildFloating : FloatingNode → Bool) : Bool :=
  let targetIsInsideChildren :=
    hasTree && (getChildren nodes nodeId).any targetInChildFloating
  if targetInFloating || targetInReference || targetIsInsideChildren then
    false
  else if !bubbles && hasTree && !(getChildren nodes nodeId).isEmpty then
    false
  else
    true

/-- Decision of the `useDismiss` ancestor-scroll listener (`onScroll`): it
invokes `onOpenChange(false)` unconditionally. -/
def ancestorScrollDismisses : Bool := true

/-! ## Prop-getter merge engine (`mergeProps` / `useInteractions`)

Handlers are opaque tokens of a type `H`; other values are strings or
integers.  Plain JavaScript objects become association lists processed in
`Object.entries` insertion order; the object spread (`{...a, ...b}`) and
`Map` mutation become `setAssoc`.  The dispatcher closure installed for an
`on*` key reads the handler map at invocation time, after the whole merge
finished, so its call sequence is the final handler list for that key
(`MergedProps.invoke`). -/

inductive PropValue (H : Type) where
  | fn (h : H)
  | raw (s : String)
  | num (n : Int)
deriving DecidableEq, Repr

/-- One JavaScript props object: keys in insertion order. -/
abbrev PropsObj (H : Type) : Type := List (String × PropValue H)

inductive OutValue (H : Type) where
  | dispatch
  | val (v : PropValue H)
deriving DecidableEq, Repr

/-- `key.indexOf('on') === 0`: the key's character sequence starts with
`on`. -/
def isOnKey (k : String) : Bool := "on".data.isPrefixOf k.data

/-- First-match association lookup (JavaScript object property read). -/
def getAssoc {A : Type} (l : List (String × A)) (k : String) : Option A :=
  (l.find? (fun p => p.1 == k)).map (·.2)

/-- Property write: overwrite in place if the key exists, else append. -/
def setAssoc {A : Type} (l : List (String × A)) (k : String) (v : A) :
    List (String × A) :=
  if l.any (fun p => p.1 == k) then
    l.map (fun p => if p.1 == k then (k, v) else p)
  else
    l ++ [(k, v)]

structure MergeState (H : Type) where
  map : List (String × List H)
  acc : List (String × OutValue H)

/-- Body of the `Object.entries(props).forEach` in the `mergeProps` reduce. -/
def processEntry {H : Type} (st : MergeState H) (kv : String × PropValue H) :
    MergeState H :=
  if isOnKey kv.1 then
    let cur := (getAssoc st.map kv.1).getD []
    let cur' := match kv.2 with
      | .fn h => cur ++ [h]
      | _ => cur
    ⟨setAssoc st.map kv.1 cur', setAssoc st.acc kv.1 .dispatch⟩
  else
    ⟨st.map, setAssoc st.acc kv.1 (.val kv.2)⟩

def processProps {H : Type} (st : MergeState H) (p : PropsObj H) :
    MergeState H :=
  p.foldl processEntry st

inductive ElementKey where
  | reference
  | floating
  | item
deriving DecidableEq, Repr

/-- One contributed prop set (`{reference, floating, item}`), each target
possibly absent. -/
structure PropSet (H : Type) where
  reference : Option (PropsObj H)
  floating : Option (PropsObj H)
  item : Option (PropsObj H)

def PropSet.get {H : Type} (ps : PropSet H) : ElementKey → Option (PropsObj H)
  | .reference => ps.reference
  | .floating => ps.floating
  | .item => ps.item

structure MergedProps (H : Type) where
  handlerMap : List (String × List H)
  entries : List (String × OutValue H)

/-- `mergeProps(userProps, propsList, elementKey)`. -/
def mergeProps {H : Type} (userProps : PropsObj H)
    (propsList : List (Option (PropSet H))) (elementKey : ElementKey) :
    MergedProps H :=
  let streams : List (Option (PropsObj H)) :=
    (propsList.map (fun v => v.bind (fun ps => ps.get elementKey))) ++
      [some userProps]
  let st := streams.foldl
    (fun st p? => match p? with | none => st | some p => processProps st p)
    (⟨[], []⟩ : MergeState H)
  let base : List (String × OutValue H) :=
    if elementKey = .floating then [("tabIndex", .val (.num (-1)))] else []
  let withUser := userProps.foldl
    (fun l kv => setAssoc l kv.1 (.val kv.2)) base
  ⟨st.map, st.acc.foldl (fun l kv => setAssoc l kv.1 kv.2) withUser⟩

/-- Call sequence performed by the merged `on*` dispatcher for `k` when the
event fires: the dispatcher reads the handler map at call time. -/
def MergedProps.invoke {H : Type} (m : MergedProps H) (k : String) : List H :=
  (getAssoc m.handlerMap k).getD []

/-- Final merged property value for key `k`. -/
def MergedProps.attr {H : Type} (m : MergedProps H) (k : String) :
    Option (OutValue H) :=
  getAssoc m.entries k

/-- The flattened entry stream the reduce processes: contributed prop sets
in order (skipping absent ones), then the caller-supplied props. -/
def contributedStream {H : Type} (userProps : PropsObj H)
    (propsList : List (Option (PropSet H))) (elementKey : ElementKey) :
    PropsObj H :=
  ((propsList.filterMap (fun v => v.bind (fun ps => ps.get elementKey))) ++
    [userProps]).flatten

/-- Contributed handler tokens for key `k`, in contribution order. -/
def onFns {H : Type} (k : String) : PropsObj H → List H
  | [] => []
  | kv :: xs =>
    (if isOnKey kv.1 && kv.1 == k then
      (match kv.2 with | .fn h => [h] | _ => [])
    else []) ++ onFns k xs

/-- Last value written for key `k` in an entry stream (general association
lists). -/
def lastWrite {A : Type} (k : String) : List (String × A) → Option A
  | [] => none
  | kv :: xs =>
    match lastWrite k xs with
    | some v => some v
    | none => if kv.1 == k then some kv.2 else none

/-- Last output value the reduce writes into `acc` for key `k`. -/
def lastOut {H : Type} (k : String) : PropsObj H → Option (OutValue H)
  | [] => none
  | kv :: xs =>
    match lastOut k xs with
    | some v => some v
    | none =>
      if kv.1 == k then
        some (if isOnKey kv.1 then .dispatch else .val kv.2)
      else none

/-! ## Hover-intent geometry (`safePolygon` / `isPointInPolygon`)

Coordinates are rationals.  On the inputs the claims quantify over, every
source computation (additions, halving, the ray-casting division) is exact
in binary floating point, so this is a faithful model there. -/

structure DOMRect where
  left : ℚ
  top : ℚ
  width : ℚ
  height : ℚ
deriving DecidableEq, Repr

def DOMRect.right (r : DOMRect) : ℚ := r.left + r.width

def DOMRect.bottom (r : DOMRect) : ℚ := r.top + r.height

/-- Ray-casting point-in-polygon test (`isPointInPolygon`), iterating edge
pairs `(i, j)` with `j` the predecessor of `i` (cyclically), with the
source's `polygon[i] || [0, 0]` default. -/
def isPointInPolygon (point : ℚ × ℚ) (polygon : List (ℚ × ℚ)) : Bool :=
  (List.range polygon.length).foldl
    (fun isInside i =>
      let pi := polygon.getD i (0, 0)
      let pj := polygon.getD ((i + polygon.length - 1) % polygon.length) (0, 0)
      let intersect :=
        (decide (pi.2 ≥ point.2) != decide (pj.2 ≥ point.2)) &&
          decide (point.1 ≤
            (pj.1 - pi.1) * (point.2 - pi.2) / (pj.2 - pi.2) + pi.1)
      if intersect then !isInside else isInside)
    false

/-- `getPolygon([x, y])` of `safePolygon`, for the four anchored sides.  An
unrecognized side yields the empty polygon (unreachable in the source). -/
def getPolygon (buffer : ℚ) (side : String) (rect refRect : DOMRect)
    (cursorLeaveFromRight cursorLeaveFromBottom : Bool) (p : ℚ × ℚ) :
    List (ℚ × ℚ) :=
  let x := p.1
  let y := p.2
  let isFloatingWider := decide (rect.width > refRect.width)
  let isFloatingTaller := decide (rect.height > refRect.height)
  if side == "top" then
    let cx := if isFloatingWider then x + buffer / 2
      else if cursorLeaveFromRight then x + buffer * 4 else x - buffer * 4
    let cx2 := if isFloatingWider then x - buffer / 2
      else if cursorLeaveFromRight then x + buffer * 4 else x - buffer * 4
    [(cx, y + buffer + 1), (cx2, y + buffer + 1),
      (rect.left,
        if cursorLeaveFromRight then rect.bottom - buffer
        else if isFloatingWider then rect.bottom - buffer else rect.top),
      (rect.right,
        if cursorLeaveFromRight then
          (if isFloatingWider then rect.bottom - buffer else rect.top)
        else rect.bottom - buffer)]
  else if side == "bottom" then
    let cx := if isFloatingWider then x + buffer / 2
      else if cursorLeaveFromRight then x + buffer * 4 else x - buffer * 4
    let cx2 := if isFloatingWider then x - buffer / 2
      else if cursorLeaveFromRight then x + buffer * 4 else x - buffer * 4
    [(cx, y - buffer), (cx2, y - buffer),
      (rect.left,
        if cursorLeaveFromRight then rect.top + buffer
        else if isFloatingWider then rect.top + buffer else rect.bottom),
      (rect.right,
        if cursorLeaveFromRight then
          (if isFloatingWider then rect.top + buffer else rect.bottom)
        else rect.top + buffer)]
  else if side == "left" then
    let cy := if isFloatingTaller then y + buffer / 2
      else if cursorLeaveFromBottom then y + buffer * 4 else y - buffer * 4
    let cy2 := if isFloatingTaller then y - buffer / 2
      else if cursorLeaveFromBottom then y + buffer * 4 else y - buffer * 4
    [((if cursorLeaveFromBottom then rect.right - buffer
        else if isFloatingTaller then rect.right - buffer else rect.left),
        rect.top),
      ((if cursorLeaveFromBottom then
          (if isFloatingTaller then rect.right - buffer else rect.left)
        else rect.right - buffer), rect.bottom),
      (x + buffer + 1, cy), (x + buffer + 1, cy2)]
  else if side == "right" then
    let cy := if isFloatingTaller then y + buffer / 2
      else if cursorLeaveFromBottom then y + buffer * 4 else y - buffer * 4
    let cy2 := if isFloatingTaller then y - buffer / 2
      else if cursorLeaveFromBottom then y + buffer * 4 else y - buffer * 4
    [(x - buffer, cy), (x - buffer, cy2),
      ((if cursorLeaveFromBottom then rect.left + buffer
        else if isFloatingTaller then rect.left + buffer else rect.right),
        rect.top),
      ((if cursorLeaveFromBottom then
          (if isFloatingTaller then rect.left + buffer else rect.right)
        else rect.left + buffer), rect.bottom)]
  else []

/-- Outcome of one `onPointerMove` run of the `safePolygon` handler. -/
inductive SafePolygonAction where
  | stay
  | close
  | restClose
deriving DecidableEq, Repr

structure SafePolygonEvent where
  clientX : ℚ
  clientY : ℚ
  isMouse : Bool
  overReference : Bool
  overFloating : Bool
  leave : Bool

structure SafePolygonArgs where
  x : Option ℚ
  y : Option ℚ
  side : String
  refRect : DOMRect
  rect : DOMRect
  hasOpenChild : Bool
  refsPresent : Bool

/-- The `safePolygon` pointer-move handler: returns the action taken and the
new value of the `polygonIsDestroyed` flag.  DOM containment tests and the
open-nested-child query are abstracted as booleans in the inputs. -/
def safePolygonMove (buffer restMs : ℚ) (polygonIsDestroyed : Bool)
    (args : SafePolygonArgs) (ev : SafePolygonEvent) :
    SafePolygonAction × Bool :=
  if !ev.isMouse then (.stay, polygonIsDestroyed)
  else if ev.overReference then (.stay, polygonIsDestroyed)
  else if args.hasOpenChild then (.stay, polygonIsDestroyed)
  else if ev.overFloating && !ev.leave then (.stay, true)
  else if !args.refsPresent then (.stay, polygonIsDestroyed)
  else
    match args.x, args.y with
    | some x, some y =>
      let refRect := args.refRect
      let rect := args.rect
      let side := args.side
      let cursorLeaveFromRight := decide (x > rect.right - rect.width / 2)
      let cursorLeaveFromBottom := decide (y > rect.bottom - rect.height / 2)
      if (side == "top" && decide (y ≥ refRect.bottom - 1)) ||
          (side == "bottom" && decide (y ≤ refRect.top + 1)) ||
          (side == "left" && decide (x ≥ refRect.right - 1)) ||
          (side == "right" && decide (x ≤ refRect.left + 1)) then
        (.close, polygonIsDestroyed)
      else if side == "top" && decide (ev.clientX ≥ rect.left) &&
          decide (ev.clientX ≤ rect.right) && decide (ev.clientY ≥ rect.top) &&
          decide (ev.clientY ≤ refRect.top + 1) then
        (.stay, polygonIsDestroyed)
      else if side == "bottom" && decide (ev.clientX ≥ rect.left) &&
          decide (ev.clientX ≤ rect.right) &&
          decide (ev.clientY ≥ refRect.bottom - 1) &&
          decide (ev.clientY ≤ rect.bottom) then
        (.stay, polygonIsDestroyed)
      else if side == "left" && decide (ev.clientX ≥ rect.left) &&
          decide (ev.clientX ≤ refRect.left + 1) &&
          decide (ev.clientY ≥ rect.top) && decide (ev.clientY ≤ rect.bottom) then
        (.stay, polygonIsDestroyed)
      else if side == "right" && decide (ev.clientX ≥ refRect.right - 1) &&
          decide (ev.clientX ≤ rect.right) && decide (ev.clientY ≥ rect.top) &&
          decide (ev.clientY ≤ rect.bottom) then
        (.stay, polygonIsDestroyed)
      else if polygonIsDestroyed then
        (.close, polygonIsDestroyed)
      else if !isPointInPolygon (ev.clientX, ev.clientY)
          (getPolygon buffer side rect refRect cursorLeaveFromRight
            cursorLeaveFromBottom (x, y)) then
        (.close, polygonIsDestroyed)
      else if restMs != 0 then
        (.restClose, polygonIsDestroyed)
      else
        (.stay, polygonIsDestroyed)
    | _, _ => (.stay, polygonIsDestroyed)

/-! ## List navigation (`useListNavigation` / `findNonDisabledIndex`) -/

structure ListItem where
  hasDisabledAttr : Bool
  ariaDisabledTrue : Bool
deriving DecidableEq, Repr

/-- JavaScript `list[index]`; out-of-bounds access and a stored `null` both
behave as absent. -/
def listGet (list : List (Option ListItem)) (index : Int) : Option ListItem :=
  if index < 0 then none
  else (list.getD index.toNat none)

/-- The disabled test of the `findNonDisabledIndex` loop condition. -/
def itemIsDisabled (list : List (Option ListItem))
    (disabledIndices : Option (List Int)) (index : Int) : Bool :=
  match disabledIndices with
  | some d => d.contains index
  | none =>
    match listGet list index with
    | none => true
    | some item => item.hasDisabledAttr || item.ariaDisabledTrue

/-- The `do ... while` loop of `findNonDisabledIndex`, with fuel: one step
moves the index by `±1`, continuing while the new index is in bounds and
disabled. -/
def findIndexLoop (list : List (Option ListItem))
    (disabledIndices : Option (List Int)) (decrement : Bool) :
    Nat → Int → Int
  | 0, index => index
  | fuel + 1, index =>
    let next := index + (if decrement then -1 else 1)
    if decide (0 ≤ next) && decide (next ≤ (list.length : Int) - 1) &&
        itemIsDisabled list disabledIndices next then
      findIndexLoop list disabledIndices decrement fuel next
    else next

/-- `findNonDisabledIndex(listRef, {startingIndex, decrement, disabledIndices})`.
Fuel `list.length + 2` always suffices (see `findIndexLoop_exit`). -/
def findNonDisabledIndex (list : List (Option ListItem))
    (disabledIndices : Option (List Int)) (startingIndex : Int)
    (decrement : Bool) : Int :=
  findIndexLoop list disabledIndices decrement (list.length + 2) startingIndex

def getMinIndex (list : List (Option ListItem))
    (disabledIndices : Option (List Int)) : Int :=
  findNonDisabledIndex list disabledIndices (-1) false

def getMaxIndex (list : List (Option ListItem))
    (disabledIndices : Option (List Int)) : Int :=
  findNonDisabledIndex list disabledIndices (list.length : Int) true

def isIndexOutOfBounds (list : List (Option ListItem)) (index : Int) : Bool :=
  decide (index < 0) || decide ((list.length : Int) ≤ index)

/-- Main-orientation branch of the `useListNavigation` key handler: given
the navigation options, whether the handler runs its focused-list reset
branch (`open && !virtual && activeElement === currentTarget`, split into
`openState`, `virtual`, `listFocusedReset`), the key direction
(`forward = isMainOrientationToEndKey`), and the current index, returns the
new `indexRef` value and the `onNavigate` payload (`none` = `null`). -/
def mainOrientationKeyDown (list : List (Option ListItem))
    (disabledIndices : Option (List Int))
    (loop allowEscape virtual openState listFocusedReset forward : Bool)
    (currentIndex : Int) : Int × Option Int :=
  if openState && !virtual && listFocusedReset then
    let idx := if forward then getMinIndex list disabledIndices
      else getMaxIndex list disabledIndices
    (idx, some idx)
  else
    let minIndex := getMinIndex list disabledIndices
    let maxIndex := getMaxIndex list disabledIndices
    let newIndex :=
      if forward then
        if loop then
          if decide (currentIndex ≥ maxIndex) then
            if allowEscape && decide (currentIndex ≠ (list.length : Int)) then
              -1
            else minIndex
          else findNonDisabledIndex list disabledIndices currentIndex false
        else
          min maxIndex (findNonDisabledIndex list disabledIndices currentIndex false)
      else
        if loop then
          if decide (currentIndex ≤ minIndex) then
            if allowEscape && decide (currentIndex ≠ -1) then
              (list.length : Int)
            else maxIndex
          else findNonDisabledIndex list disabledIndices currentIndex true
        else
          max minIndex (findNonDisabledIndex list disabledIndices currentIndex true)
    (newIndex, if isIndexOutOfBounds list newIndex then none else some newIndex)

/-- Home/End branch of the key handler: sets `indexRef` to the min/max
non-disabled index and calls `onNavigate` with it, with no bounds guard. -/
def homeEndKeyDown (list : List (Option ListItem))
    (disabledIndices : Option (List Int)) (isEnd : Bool) : Int × Option Int :=
  let idx := if isEnd then getMaxIndex list disabledIndices
    else getMinIndex list disabledIndices
  (idx, some idx)

/-- The item `onFocus` handler: `onNavigate(listRef.current.indexOf(target))`
when the target is present. Items are opaque element handles (`Nat`). -/
def itemOnFocusNavigate (items : List (Option Nat)) (target : Nat) :
    Option Int :=
  match items.findIdx? (· == some target) with
  | some i => some (i : Int)
  | none => none

/-- The item `onMouseMove` handler (installed when `focusItemOnHover`): same
index lookup, no disabled check. -/
def itemOnMouseMoveNavigate (items : List (Option Nat)) (target : Nat) :
    Option Int :=
  match items.findIdx? (· == some target) with
  | some i => some (i : Int)
  | none => none

/-- Soundness predicate used to state the activeIndex invariant: if the
index is in bounds, it is not disabled. -/
def NavSafe (list : List (Option ListItem)) (dis : Option (List Int))
    (X : Int) : Prop :=
  0 ≤ X → X ≤ (list.length : Int) - 1 → itemIsDisabled list dis X = false

/-! ## Typeahead (`useTypeahead`) -/

structure TypeaheadState where
  str : String
  prevIndex : Option Int
  matchIndex : Option Int
deriving DecidableEq, Repr

/-- Initial refs: `stringRef = ''`, `prevIndexRef = selectedIndex ?? activeIndex ?? -1`,
`matchIndexRef = null`. -/
def typeaheadInit (selectedIndex activeIndex : Option Int) : TypeaheadState :=
  ⟨"", some ((selectedIndex <|> activeIndex).getD (-1)), none⟩

def lowerAt (t : String) (i : Nat) : Option Char :=
  (t.data.get? i).map Char.toLower

/-- The `useTypeahead` key-down handler as a state transition; the second
component is the `onMatch` payload, if any.  The reset timer is a separate
transition (`typeaheadResetTimer`). -/
def typeaheadKeyDown (ignoreKeys : List String)
    (listContent : List (Option String)) (st : TypeaheadState) (key : String) :
    TypeaheadState × Option Int :=
  if (["Home", "End", "Escape", "Enter", "Tab", "ArrowUp", "ArrowDown",
      "ArrowLeft", "ArrowRight"] ++ ignoreKeys).contains key then
    (st, none)
  else
    let allowRapidSuccessionOfFirstLetter := listContent.all fun t? =>
      match t? with
      | none => true
      | some t => lowerAt t 0 != lowerAt t 1
    let st1 := if allowRapidSuccessionOfFirstLetter && st.str == key then
        { st with str := "", prevIndex := st.matchIndex }
      else st
    let st2 := { st1 with str := st1.str ++ key }
    let prevIndex := st2.prevIndex.getD 0
    let cut := (prevIndex + 1).toNat
    let orderedList := listContent.drop cut ++ listContent.take cut
    let found := orderedList.find? fun t? =>
      match t? with
      | some t => st2.str.data.isPrefixOf (t.data.map Char.toLower)
      | none => false
    match found with
    | some t? =>
      match listContent.findIdx? (· == t?) with
      | some i => ({ st2 with matchIndex := some (i : Int) }, some (i : Int))
      | none => (st2, none)
    | none => (st2, none)

/-- The `resetMs` timeout body: clears the buffer and moves `prevIndexRef`
to the last matched index. -/
def typeaheadResetTimer (st : TypeaheadState) : TypeaheadState :=
  { st with str := "", prevIndex := st.matchIndex }

/-! ## Aria-hidden ledger (`hideOthers`)

Per-node state touched by `hideOthers` activations and their returned
release functions.  Nodes are handled independently by the source's maps,
so one node's round trip is modeled directly. -/

structure AriaNodeState where
  ariaHidden : Option String
  marker : Bool
  counter : Nat
  markerCounter : Nat
  uncontrolled : Bool
deriving DecidableEq, Repr

/-- `attr !== null && attr !== 'false'`. -/
def ariaAlreadyHidden (attr : Option String) : Bool :=
  match attr with
  | none => false
  | some s => s != "false"

/-- Effect of one `hideOthers` activation on one outside node. -/
def hideStep (s : AriaNodeState) : AriaNodeState :=
  let alreadyHidden := ariaAlreadyHidden s.ariaHidden
  let counterValue := s.counter + 1
  let markerValue := s.markerCounter + 1
  { ariaHidden := if !alreadyHidden then some "true" else s.ariaHidden
    marker := if markerValue = 1 then true else s.marker
    counter := counterValue
    markerCounter := markerValue
    uncontrolled := if counterValue = 1 && alreadyHidden then true
      else s.uncontrolled }

/-- Effect of one release (the function `hideOthers` returns) on one node it
had recorded in `hiddenNodes`. -/
def releaseStep (s : AriaNodeState) : AriaNodeState :=
  let counterValue := s.counter - 1
  let markerValue := s.markerCounter - 1
  let s1 := { s with counter := counterValue, markerCounter := markerValue }
  let s2 := if counterValue = 0 then
      { s1 with
        ariaHidden := if !s1.uncontrolled then none else s1.ariaHidden
        uncontrolled := false }
    else s1
  if markerValue = 0 then { s2 with marker := false } else s2

def ariaInitial (attr : Option String) : AriaNodeState :=
  ⟨attr, false, 0, 0, false⟩

/-- State of one outside node after `n` overlapping activations followed by
`n` releases. -/
def ariaRoundTrip (n : Nat) (attr : Option String) : AriaNodeState :=
  releaseStep^[n] (hideStep^[n] (ariaInitial attr))

/-! ## Concrete instances used by witnesses and counterexamples -/

/-- A four-level open chain `a ← b ← c ← d`. -/
def chainNodes : List FloatingNode :=
  [⟨"a", none, some true⟩, ⟨"b", some "a", some true⟩,
   ⟨"c", some "b", some true⟩, ⟨"d", some "c", some true⟩]

def chainDepth : String → Nat := fun s =>
  if s = "b" then 1 else if s = "c" then 2 else if s = "d" then 3 else 0

/-- An open parent `p` with one open child `c`. -/
def pairNodes : List FloatingNode :=
  [⟨"p", none, some true⟩, ⟨"c", some "p", some true⟩]

def pairDepth : String → Nat := fun s => if s = "c" then 1 else 0

/-- A contributed prop set with an internally computed role and a click
handler (handler tokens are numbers). -/
def propsRole : PropSet Nat :=
  ⟨some [("role", .raw "listbox"), ("onClick", .fn 1)], none, none⟩

/-- A second contributed prop set with another click handler. -/
def propsClick : PropSet Nat :=
  ⟨some [("onClick", .fn 2)], none, none⟩

/-- Caller-supplied props: a role override and a third click handler. -/
def userPropsEx : PropsObj Nat :=
  [("role", .raw "menu"), ("onClick", .fn 7)]

/-- The safe-polygon scenario of the spec: reference `{x:0,y:0,w:100,h:40}`,
floating anchored `bottom` at `{x:0,y:40,w:100,h:60}`, cursor anchor point
`(50, 38)` where the pointer left the reference. -/
def bottomScenarioArgs : SafePolygonArgs :=
  ⟨some 50, some 38, "bottom", ⟨0, 0, 100, 40⟩, ⟨0, 40, 100, 60⟩, false, true⟩

def appleLabels : List (Option String) :=
  [some "Apple", some "Apricot", some "Banana"]

/-- Disabled set of the list-navigation scenario. -/
def disabled49 : List Int := [0, 1, 2, 5, 10, 15, 46, 47, 48]

/-- 49 plain enabled items. -/
def items49 : List (Option ListItem) := List.replicate 49 (some ⟨false, false⟩)

/-- A forward main-orientation key press in the 49-item scenario
(`loop = true`, `allowEscape = false`, real focus, floating open, no
focused-list reset): the new `indexRef` value. -/
def forwardPress49 (i : Int) : Int :=
  (mainOrientationKeyDown items49 (some disabled49) true false false true
    false true i).1

/-- In-bounds and not in the disabled set. -/
def good49 (i : Int) : Bool :=
  decide (0 ≤ i) && decide (i < 49) && !(disabled49.contains i)

/-- Three plain enabled items. -/
def threeItems : List (Option ListItem) :=
  List.replicate 3 (some ⟨false, false⟩)

/-- Two plain enabled items. -/
def twoItems : List (Option ListItem) :=
  [some ⟨false, false⟩, some ⟨false, false⟩]

theorem acyclic_of_depthMeasure {nodes : List FloatingNode} {d : String → Nat}
    (h : DepthMeasure nodes d) : AcyclicNodes nodes := by
  have step : ∀ a b, Relation.TransGen (parentRel nodes) a b → d b.id < d a.id := by
    intro a b hab
    induction hab with
    | single h1 => exact h _ h1.1 _ h1.2.1 h1.2.2
    | tail _ h2 ih => exact lt_trans (h _ h2.1 _ h2.2.1 h2.2.2) ih
  intro n hn
  exact lt_irrefl _ (step n n hn)

/-! ### Chains, pigeonhole, and termination of the tree loops -/

/-- A strictly descending chain (with respect to a relation whose transitive
closure is irreflexive) of elements of a finite list has at most
`l.length` elements. -/
theorem chain_length_le {α : Type} [DecidableEq α] {l : List α}
    {r : α → α → Prop} (hirr : ∀ a, ¬ Relation.TransGen r a a)
    (f : Nat → α) (k : Nat) (hmem : ∀ i, i ≤ k → f i ∈ l)
    (hchain : ∀ i, i < k → r (f (i + 1)) (f i)) : k + 1 ≤ l.length := by
  by_contra hlt
  push_neg at hlt
  have hcard : l.toFinset.card < (Finset.range (k + 1)).card := by
    have := List.toFinset_card_le l
    rw [Finset.card_range]
    omega
  obtain ⟨i, hi, j, hj, hij, hfij⟩ :=
    Finset.exists_ne_map_eq_of_card_lt_of_maps_to hcard
      (fun i hi => List.mem_toFinset.mpr
        (hmem i (Nat.lt_succ_iff.mp (Finset.mem_range.mp hi))))
  have asc : ∀ j i, i < j → j ≤ k → Relation.TransGen r (f j) (f i) := by
    intro j
    induction j with
    | zero => intro i h _; omega
    | succ j ih =>
      intro i hij hjk
      rcases Nat.lt_succ_iff_lt_or_eq.mp hij with h | h
      · exact Relation.TransGen.head (hchain j (by omega)) (ih i h (by omega))
      · subst h; exact Relation.TransGen.single (hchain i (by omega))
  have hik := Nat.lt_succ_iff.mp (Finset.mem_range.mp hi)
  have hjk := Nat.lt_succ_iff.mp (Finset.mem_range.mp hj)
  rcases Nat.lt_or_ge i j with h | h
  · exact hirr (f i) (hfij ▸ asc j i h hjk)
  · have h' : j < i := by omega
    exact hirr (f j) (hfij.symm ▸ asc i j h' hik)

theorem childLevel_nil (nodes : List FloatingNode) :
    childLevel nodes [] = [] := by
  simp [childLevel]

theorem childLevel_iterate_nil (nodes : List FloatingNode) (k : Nat) :
    (childLevel nodes)^[k] [] = [] := by
  induction k with
  | zero => rfl
  | succ k ih => rw [Function.iterate_succ_apply, childLevel_nil]; exact ih

theorem childLevel_subset (nodes cur : List FloatingNode) :
    childLevel nodes cur ⊆ nodes :=
  fun _ hx => (List.mem_filter.mp hx).1

/-- Membership in one level unfolds to: a parent in the previous level, a
matching open `parentId` link. -/
theorem mem_childLevel {nodes cur : List FloatingNode} {n : FloatingNode} :
    n ∈ childLevel nodes cur ↔
      n ∈ nodes ∧ n.ctxOpen = true ∧ ∃ p ∈ cur, n.parentId = some p.id := by
  simp only [childLevel, List.mem_filter, List.any_eq_true, Bool.and_eq_true,
    beq_iff_eq]
  constructor
  · rintro ⟨hn, p, hp, hpar, hopen⟩
    exact ⟨hn, hopen, p, hp, hpar⟩
  · rintro ⟨hn, hopen, p, hp, hpar⟩
    exact ⟨hn, p, hp, hpar, hopen⟩

/-- Every member of the `k`-th level sits at the end of a `parentId`-chain of
`k + 1` nodes starting in the initial level. -/
theorem childLevel_iterate_chain {nodes init : List FloatingNode}
    (hsub : init ⊆ nodes) :
    ∀ (k : Nat) (n : FloatingNode), n ∈ (childLevel nodes)^[k] init →
      ∃ f : Nat → FloatingNode, f 0 ∈ init ∧ f k = n ∧
        (∀ i, i ≤ k → f i ∈ nodes) ∧
        (∀ i, i < k → parentRel nodes (f (i + 1)) (f i)) := by
  intro k
  induction k with
  | zero =>
    intro n hn
    exact ⟨fun _ => n, hn, rfl, fun i hi => hsub hn, by omega⟩
  | succ k ih =>
    intro n hn
    rw [Function.iterate_succ_apply'] at hn
    obtain ⟨hnn, hopen, p, hp, hpar⟩ := mem_childLevel.mp hn
    obtain ⟨g, hg0, hgk, hgmem, hgchain⟩ := ih p hp
    refine ⟨Function.update g (k + 1) n, ?_, by simp, ?_, ?_⟩
    · rw [Function.update_noteq (by omega)]
      exact hg0
    · intro i hi
      by_cases h : i = k + 1
      · subst h; simpa using hnn
      · rw [Function.update_noteq h]
        exact hgmem i (by omega)
    · intro i hi
      by_cases h : i = k
      · subst h
        rw [Function.update_same, Function.update_noteq (by omega)]
        exact ⟨hnn, hgk ▸ hgmem i le_rfl, by rw [hgk]; exact hpar⟩
      · rw [Function.update_noteq (by omega), Function.update_noteq (by omega)]
        exact hgchain i (by omega)

/-- Under the forest precondition the level iteration dies out after at most
`nodes.length` steps. -/
theorem childLevel_iterate_length {nodes init : List FloatingNode}
    (hA : AcyclicNodes nodes) (hsub : init ⊆ nodes) :
    (childLevel nodes)^[nodes.length] init = [] := by
  by_contra h
  obtain ⟨n, hn⟩ := List.exists_mem_of_ne_nil _ h
  obtain ⟨f, _, _, hmem, hchain⟩ :=
    childLevel_iterate_chain hsub nodes.length n hn
  have := chain_length_le (l := nodes)
    (fun a ha => hA a ha) f nodes.length hmem hchain
  omega

/-- If the fueled loop reports incompleteness, the level at depth `fuel` is
still nonempty. -/
theorem childLoop_flag_false {nodes : List FloatingNode} :
    ∀ (fuel : Nat) (cur : List FloatingNode),
      (childLoop nodes fuel cur).2 = false →
      (childLevel nodes)^[fuel] cur ≠ [] := by
  intro fuel
  induction fuel with
  | zero =>
    intro cur h
    match cur, h with
    | _ :: _, _ => simp
  | succ fuel ih =>
    intro cur h
    match cur, h with
    | c :: cs, h =>
      rw [Function.iterate_succ_apply]
      exact ih (childLevel nodes (c :: cs)) h

/-- Under the forest precondition the `getChildren` loop reaches its natural
exit within `nodes.length` iterations. -/
theorem childLoop_completes {nodes init : List FloatingNode}
    (hA : AcyclicNodes nodes) (hsub : init ⊆ nodes) :
    (childLoop nodes nodes.length init).2 = true := by
  by_contra h
  rw [Bool.not_eq_true] at h
  exact childLoop_flag_false nodes.length init h
    (childLevel_iterate_length hA hsub)

/-- Membership in the loop's accumulated output is membership in some level
`1 ≤ k ≤ fuel`. -/
theorem childLoop_mem {nodes : List FloatingNode} :
    ∀ (fuel : Nat) (cur : List FloatingNode) (n : FloatingNode),
      n ∈ (childLoop nodes fuel cur).1 ↔
        ∃ k, 1 ≤ k ∧ k ≤ fuel ∧ n ∈ (childLevel nodes)^[k] cur := by
  intro fuel
  induction fuel with
  | zero =>
    intro cur n
    match cur with
    | [] =>
      simp only [childLoop, List.not_mem_nil, false_iff]
      rintro ⟨k, hk1, hk0, _⟩
      omega
    | c :: cs =>
      simp only [childLoop, List.not_mem_nil, false_iff]
      rintro ⟨k, hk1, hk0, _⟩
      omega
  | succ fuel ih =>
    intro cur n
    match cur with
    | [] =>
      simp only [childLoop, List.not_mem_nil, false_iff]
      rintro ⟨k, hk1, _, hmem⟩
      rw [childLevel_iterate_nil] at hmem
      exact List.not_mem_nil n hmem
    | c :: cs =>
      simp only [childLoop, List.mem_append, ih]
      constructor
      · rintro (h | ⟨k, hk1, hkf, hmem⟩)
        · exact ⟨1, le_rfl, by omega, by simpa using h⟩
        · exact ⟨k + 1, by omega, by omega,
            by rw [Function.iterate_succ_apply]; exact hmem⟩
      · rintro ⟨k, hk1, hkf, hmem⟩
        match k, hk1 with
        | 1, _ => exact Or.inl (by simpa using hmem)
        | k + 2, _ =>
          refine Or.inr ⟨k + 1, by omega, by omega, ?_⟩
          rw [Function.iterate_succ_apply] at hmem
          exact hmem

/-- `getChildren` returns exactly the transitive open descendants. -/
theorem getChildren_mem_iff {nodes : List FloatingNode}
    (hA : AcyclicNodes nodes) (id : Option String) (n : FloatingNode) :
    n ∈ getChildren nodes id ↔ OpenDesc nodes id n := by
  classical
  set init := nodes.filter
    (fun node => node.parentId == id && node.ctxOpen) with hinit
  have hsub : init ⊆ nodes := fun _ hx => (List.mem_filter.mp hx).1
  have hinit_mem : ∀ m, m ∈ init ↔
      m ∈ nodes ∧ m.parentId = id ∧ m.ctxOpen = true := by
    intro m
    simp [hinit, List.mem_filter, Bool.and_eq_true, beq_iff_eq, and_assoc]
  have hiter : ∀ (k : Nat) (m : FloatingNode),
      m ∈ (childLevel nodes)^[k] init → OpenDesc nodes id m := by
    intro k
    induction k with
    | zero =>
      intro m hm
      obtain ⟨h1, h2, h3⟩ := (hinit_mem m).mp hm
      exact OpenDesc.base h1 h2 h3
    | succ k ih =>
      intro m hm
      rw [Function.iterate_succ_apply'] at hm
      obtain ⟨h1, h2, p, hp, hpar⟩ := mem_childLevel.mp hm
      exact OpenDesc.step (ih p hp) h1 hpar h2
  have hdesc : ∀ m, OpenDesc nodes id m →
      ∃ k, k < nodes.length ∧ m ∈ (childLevel nodes)^[k] init := by
    intro m hm
    have hx : ∃ k, m ∈ (childLevel nodes)^[k] init := by
      induction hm with
      | base h1 h2 h3 => exact ⟨0, (hinit_mem _).mpr ⟨h1, h2, h3⟩⟩
      | step hp h1 h2 h3 ih =>
        obtain ⟨k, hk⟩ := ih
        refine ⟨k + 1, ?_⟩
        rw [Function.iterate_succ_apply']
        exact mem_childLevel.mpr ⟨h1, h3, _, hk, h2⟩
    obtain ⟨k, hk⟩ := hx
    refine ⟨k, ?_, hk⟩
    by_contra hge
    push_neg at hge
    have : (childLevel nodes)^[k] init = [] := by
      have := childLevel_iterate_length hA hsub
      calc (childLevel nodes)^[k] init
          = (childLevel nodes)^[k - nodes.length]
              ((childLevel nodes)^[nodes.length] init) := by
            rw [← Function.iterate_add_apply]
            congr 1
            omega
        _ = [] := by rw [this, childLevel_iterate_nil]
    rw [this] at hk
    exact List.not_mem_nil m hk
  constructor
  · intro h
    rcases List.mem_append.mp h with h | h
    · exact hiter 0 n h
    · obtain ⟨k, _, _, hmem⟩ := (childLoop_mem nodes.length init n).mp h
      exact hiter k n hmem
  · intro h
    obtain ⟨k, hk, hmem⟩ := hdesc n h
    rcases Nat.eq_zero_or_pos k with h0 | h0
    · subst h0
      exact List.mem_append.mpr (Or.inl hmem)
    · exact List.mem_append.mpr (Or.inr
        ((childLoop_mem nodes.length init n).mpr ⟨k, h0, by omega, hmem⟩))

theorem findNode_mem {nodes : List FloatingNode} {pid : String}
    {m : FloatingNode} (h : findNode nodes pid = some m) : m ∈ nodes :=
  List.mem_of_find?_eq_some h

theorem findNode_id {nodes : List FloatingNode} {pid : String}
    {m : FloatingNode} (h : findNode nodes pid = some m) : m.id = pid := by
  have := List.find?_some h
  simpa [beq_iff_eq] using this

/-- If the fueled ancestor walk reports incompleteness, it traversed a
`parentId`-chain of `fuel` nodes. -/
theorem ancLoop_false {nodes : List FloatingNode} :
    ∀ (fuel : Nat) (o : Option String),
      (ancLoop nodes fuel o).2 = false →
      ∃ f : Nat → FloatingNode,
        (∀ i, i < fuel → f i ∈ nodes) ∧
        (∀ i, i + 1 < fuel → parentRel nodes (f i) (f (i + 1))) ∧
        (0 < fuel → ∃ pid, o = some pid ∧ findNode nodes pid = some (f 0)) := by
  intro fuel
  induction fuel with
  | zero =>
    intro o h
    exact ⟨fun _ => ⟨"", none, none⟩, by omega, by omega, by omega⟩
  | succ fuel ih =>
    intro o h
    match o, h with
    | some pid, h =>
      rw [ancLoop] at h
      cases hfind : findNode nodes pid with
      | none => rw [hfind] at h; simp at h
      | some cur =>
        rw [hfind] at h
        have hrest : (ancLoop nodes fuel cur.parentId).2 = false := h
        obtain ⟨g, hmem, hchain, hhead⟩ := ih cur.parentId hrest
        refine ⟨fun i => match i with | 0 => cur | i + 1 => g i, ?_, ?_, ?_⟩
        · intro i hi
          match i with
          | 0 => exact findNode_mem hfind
          | i + 1 => exact hmem i (by omega)
        · intro i hi
          match i with
          | 0 =>
            obtain ⟨pid', hpid', hfind'⟩ := hhead (by omega)
            exact ⟨findNode_mem hfind, hmem 0 (by omega),
              by rw [hpid', findNode_id hfind']⟩
          | i + 1 => exact hchain i (by omega)
        · intro _
          exact ⟨pid, rfl, hfind⟩

/-- Under the forest precondition the ancestor walk reaches its natural exit
within `nodes.length + 1` iterations. -/
theorem ancLoop_completes {nodes : List FloatingNode}
    (hA : AcyclicNodes nodes) (o : Option String) :
    (ancLoop nodes (nodes.length + 1) o).2 = true := by
  by_contra h
  rw [Bool.not_eq_true] at h
  obtain ⟨f, hmem, hchain, _⟩ := ancLoop_false (nodes.length + 1) o h
  have hirr : ∀ a, ¬ Relation.TransGen
      (Function.swap (parentRel nodes)) a a := by
    intro a ha
    exact hA a (Relation.transGen_swap.mp ha)
  have := chain_length_le (l := nodes) hirr f nodes.length
    (fun i hi => hmem i (by omega))
    (fun i hi => hchain i (by omega))
  omega

/-- When the walk completes, its output is exactly the set of nodes
reachable through iterated parent lookups. -/
theorem ancLoop_mem_iff {nodes : List FloatingNode} :
    ∀ (fuel : Nat) (o : Option String) (n : FloatingNode),
      (ancLoop nodes fuel o).2 = true →
      (n ∈ (ancLoop nodes fuel o).1 ↔ ancReachable nodes o n) := by
  intro fuel
  induction fuel with
  | zero =>
    intro o n h
    match o, h with
    | none, _ =>
      simp only [ancLoop, List.not_mem_nil, false_iff]
      rintro ⟨pid, m, hpid, _, _⟩
      exact Option.noConfusion hpid
  | succ fuel ih =>
    intro o n h
    match o with
    | none =>
      simp only [ancLoop, List.not_mem_nil, false_iff]
      rintro ⟨pid, m, hpid, _, _⟩
      exact Option.noConfusion hpid
    | some pid =>
      rw [ancLoop] at h ⊢
      cases hfind : findNode nodes pid with
      | none =>
        dsimp only at h ⊢
        simp only [List.not_mem_nil, false_iff]
        rintro ⟨pid', m, hpid', hfind', _⟩
        obtain rfl : pid = pid' := Option.some.inj hpid'
        rw [hfind] at hfind'
        exact Option.noConfusion hfind'
      | some cur =>
        rw [hfind] at h
        dsimp only at h ⊢
        have hrest := ih cur.parentId n h
        simp only [List.mem_cons]
        constructor
        · rintro (rfl | hmemrest)
          · exact ⟨pid, n, rfl, hfind, Relation.ReflTransGen.refl⟩
          · obtain ⟨pid', m, hpid', hfind', hrtg⟩ := hrest.mp hmemrest
            refine ⟨pid, cur, rfl, hfind, ?_⟩
            refine Relation.ReflTransGen.head ?_ hrtg
            show parentNode nodes cur = some m
            rw [parentNode, hpid']
            exact hfind'
        · rintro ⟨pid', m, hpid', hfind', hrtg⟩
          obtain rfl : pid' = pid := Option.some.inj hpid'.symm
          rw [hfind] at hfind'
          obtain rfl : m = cur := Option.some.inj hfind'.symm
          rcases Relation.ReflTransGen.cases_head_iff.mp hrtg with rfl | ⟨c, hc, hrtg'⟩
          · exact Or.inl rfl
          · refine Or.inr (hrest.mpr ?_)
            rw [parentStep, parentNode] at hc
            obtain ⟨pid2, hpid2, hfind2⟩ := Option.bind_eq_some.mp hc
            exact ⟨pid2, c, hpid2, hfind2, hrtg'⟩

theorem transGen_parentRel_mem {nodes : List FloatingNode} {a b : FloatingNode}
    (h : Relation.TransGen (parentRel nodes) a b) : b ∈ nodes := by
  induction h with
  | single h1 => exact h1.2.1
  | tail _ h2 _ => exact h2.2.1

theorem parentStep_to_parentRel {nodes : List FloatingNode}
    {a b : FloatingNode} (ha : a ∈ nodes) (h : parentStep nodes a b) :
    parentRel nodes a b := by
  rw [parentStep, parentNode] at h
  obtain ⟨pid, hpid, hfind⟩ := Option.bind_eq_some.mp h
  exact ⟨ha, findNode_mem hfind, by rw [hpid, findNode_id hfind]⟩

theorem transGen_parentStep_to_parentRel {nodes : List FloatingNode}
    {a b : FloatingNode} (ha : a ∈ nodes)
    (h : Relation.TransGen (parentStep nodes) a b) :
    Relation.TransGen (parentRel nodes) a b := by
  induction h with
  | single h1 => exact Relation.TransGen.single (parentStep_to_parentRel ha h1)
  | tail hab h2 ih =>
    exact ih.tail (parentStep_to_parentRel (transGen_parentRel_mem ih) h2)

theorem openDesc_mem {nodes : List FloatingNode} {id : Option String}
    {n : FloatingNode} (h : OpenDesc nodes id n) : n ∈ nodes := by
  induction h with
  | base h1 _ _ => exact h1
  | step _ h1 _ _ _ => exact h1

/-- Every transitive open descendant reaches, through upward `parentId`
links, a base node whose `parentId` is the queried id. -/
theorem openDesc_chain_base {nodes : List FloatingNode} {id : Option String}
    {n : FloatingNode} (h : OpenDesc nodes id n) :
    ∃ b, Relation.ReflTransGen (parentRel nodes) n b ∧ b ∈ nodes ∧
      b.parentId = id := by
  induction h with
  | base h1 h2 _ => exact ⟨_, Relation.ReflTransGen.refl, h1, h2⟩
  | step hp h1 h2 _ ih =>
    obtain ⟨b, hrtg, hb, hbp⟩ := ih
    exact ⟨b, Relation.ReflTransGen.head ⟨h1, openDesc_mem hp, h2⟩ hrtg, hb, hbp⟩

/-- Membership in `getAncestors` is exactly transitive reachability through
the deterministic parent lookup, starting from the node found for `id`. -/
theorem getAncestors_mem_iff {nodes : List FloatingNode}
    (hA : AcyclicNodes nodes) (id : String) (n : FloatingNode) :
    n ∈ getAncestors nodes id ↔
      ∃ s, findNode nodes id = some s ∧
        Relation.TransGen (parentStep nodes) s n := by
  rw [getAncestors,
    ancLoop_mem_iff _ _ _ (ancLoop_completes hA _)]
  constructor
  · rintro ⟨pid, m, ho, hfindm, hrtg⟩
    obtain ⟨s, hs, hspar⟩ := Option.bind_eq_some.mp ho
    refine ⟨s, hs, Relation.TransGen.head'_iff.mpr ⟨m, ?_, hrtg⟩⟩
    rw [parentStep, parentNode, hspar]
    exact hfindm
  · rintro ⟨s, hs, htg⟩
    obtain ⟨m, hstep, hrtg⟩ := Relation.TransGen.head'_iff.mp htg
    rw [parentStep, parentNode] at hstep
    obtain ⟨pid, hpid, hfindm⟩ := Option.bind_eq_some.mp hstep
    exact ⟨pid, m, by rw [hs, Option.bind_eq_some]; exact ⟨s, rfl, hpid⟩,
      hfindm, hrtg⟩

theorem isEmpty_false_of_ne_nil {l : List FloatingNode} (h : l ≠ []) :
    l.isEmpty = false := by
  cases l with
  | nil => exact absurd rfl h
  | cons a as => rfl

/-! ## Claim C4: safe-polygon scenario -/

/-- Claim C4.  With placement side `bottom`, reference rectangle
`{x:0,y:0,w:100,h:40}` and floating rectangle `{x:0,y:40,w:100,h:60}`, the
`safePolygon` pointer-move handler does not invoke `onClose` for a pointer
at `(50, 45)` — the point lies in the rectangular trough between the two
elements — and does invoke `onClose` for a pointer at `(500, 500)`, which
the ray-casting point-in-polygon test classifies as outside the constructed
polygon.  The handler runs with the default configuration
(`buffer = 0.5`, `restMs = 0`), a live polygon (`polygonIsDestroyed =
false`) and cursor anchor `(50, 38)`, the point where the pointer left the
reference. -/
theorem safePolygon_trough_and_outside_C4 :
    (safePolygonMove (1/2) 0 false bottomScenarioArgs
      ⟨50, 45, true, false, false, false⟩).1 = .stay ∧
    (safePolygonMove (1/2) 0 false bottomScenarioArgs
      ⟨500, 500, true, false, false, false⟩).1 = .close := by
  constructor
  · simp only [bottomScenarioArgs, safePolygonMove, getPolygon,
      isPointInPolygon, DOMRect.right, DOMRect.bottom]
    norm_num
  · simp only [bottomScenarioArgs, safePolygonMove, getPolygon,
      isPointInPolygon, DOMRect.right, DOMRect.bottom]
    norm_num
    simp +decide
    norm_num [show List.range 4 = [0, 1, 2, 3] from by decide,
      List.foldl_cons, List.foldl_nil]

/-! ## Claim C6: typeahead scenarios -/

/-- Claim C6.  For item labels `["Apple","Apricot","Banana"]`: typing `a`
then `a` again with no timer reset in between moves the matched index from
`0` ("Apple") to `1` ("Apricot") — the repeated single key equal to the
last matched prefix cycles to the next item sharing that first letter — and
typing `b` then `a` (a fresh buffer accumulating to `"ba"`) matches index
`2` ("Banana") on both key presses: the buffer is matched as a
case-insensitive prefix against the labels, searching from just after the
previously matched index with wrap-around. -/
theorem typeahead_cycle_and_prefix_C6 :
    (typeaheadKeyDown [] appleLabels (typeaheadInit none none) "a").2 =
      some 0 ∧
    (typeaheadKeyDown [] appleLabels
      (typeaheadKeyDown [] appleLabels (typeaheadInit none none) "a").1
      "a").2 = some 1 ∧
    (typeaheadKeyDown [] appleLabels (typeaheadInit none none) "b").2 =
      some 2 ∧
    (typeaheadKeyDown [] appleLabels
      (typeaheadKeyDown [] appleLabels (typeaheadInit none none) "b").1
      "a").2 = some 2 := by
  refine ⟨by decide, by decide, by decide, by decide⟩

/-! ## Claim C7: aria-hidden round trip -/

theorem hideStep_iterate_hidden {s : String} (hs : (s != "false") = true) :
    ∀ n, 1 ≤ n →
      hideStep^[n] (ariaInitial (some s)) = ⟨some s, true, n, n, true⟩ := by
  intro n
  induction n with
  | zero => omega
  | succ n ih =>
    intro _
    rcases Nat.eq_zero_or_pos n with rfl | hn
    · simp [hideStep, ariaInitial, ariaAlreadyHidden, hs]
    · rw [Function.iterate_succ_apply', ih hn]
      simp only [hideStep, ariaAlreadyHidden, hs]
      have h1 : ¬ (n + 1 = 1) := by omega
      simp [h1]

theorem hideStep_iterate_unhidden {a0 : Option String}
    (h : ariaAlreadyHidden a0 = false) :
    ∀ n, 1 ≤ n →
      hideStep^[n] (ariaInitial a0) = ⟨some "true", true, n, n, false⟩ := by
  intro n
  induction n with
  | zero => omega
  | succ n ih =>
    intro _
    rcases Nat.eq_zero_or_pos n with rfl | hn
    · simp [hideStep, ariaInitial, h]
    · rw [Function.iterate_succ_apply', ih hn]
      simp only [hideStep, ariaAlreadyHidden]
      have h1 : ¬ (n + 1 = 1) := by omega
      simp [h1]

theorem releaseStep_iterate (attr : Option String) (u : Bool) :
    ∀ k n, k < n →
      releaseStep^[k] ⟨attr, true, n, n, u⟩ = ⟨attr, true, n - k, n - k, u⟩ := by
  intro k
  induction k with
  | zero => intro n _; rfl
  | succ k ih =>
    intro n hk
    rw [Function.iterate_succ_apply', ih n (by omega)]
    simp only [releaseStep]
    have h1 : ¬ (n - k - 1 = 0) := by omega
    simp only [h1, if_neg, if_false]
    have h2 : n - k - 1 = n - (k + 1) := by omega
    simp [h2]

theorem ariaRoundTrip_eq {n : Nat} (h : 1 ≤ n) (attr : Option String) :
    ariaRoundTrip n attr =
      ⟨if ariaAlreadyHidden attr then attr else none, false, 0, 0, false⟩ := by
  rw [ariaRoundTrip]
  cases hh : ariaAlreadyHidden attr with
  | true =>
    obtain ⟨s, rfl⟩ : ∃ s, attr = some s := by
      cases attr with
      | none => simp [ariaAlreadyHidden] at hh
      | some s => exact ⟨s, rfl⟩
    have hs : (s != "false") = true := by
      simpa [ariaAlreadyHidden] using hh
    rw [hideStep_iterate_hidden hs n h]
    obtain ⟨m, rfl⟩ : ∃ m, n = m + 1 := ⟨n - 1, by omega⟩
    rw [Function.iterate_succ_apply', releaseStep_iterate _ _ m (m + 1) (by omega)]
    have hm : m + 1 - m = 1 := by omega
    rw [hm]
    simp [releaseStep]
  | false =>
    rw [hideStep_iterate_unhidden hh n h]
    obtain ⟨m, rfl⟩ : ∃ m, n = m + 1 := ⟨n - 1, by omega⟩
    rw [Function.iterate_succ_apply', releaseStep_iterate _ _ m (m + 1) (by omega)]
    have hm : m + 1 - m = 1 := by omega
    rw [hm]
    simp [releaseStep]

/-- Claim C7, counterexample.  A node whose `aria-hidden` attribute was the
literal string `"false"` before the first activation does not get it back:
after one activation and one release the attribute is removed entirely, so
the round trip is not bit-identical. -/
theorem hideOthers_roundTrip_C7_counterexample :
    (ariaRoundTrip 1 (some "false")).ariaHidden = none ∧
    (ariaRoundTrip 1 (some "false")).ariaHidden ≠ some "false" := by
  refine ⟨by decide, by decide⟩

/-- Claim C7, amended.  For every N ≥ 1, performing N overlapping
`hideOthers` activations over the same outside node followed by the N
releases restores the node's `aria-hidden` attribute bit-identically —
provided its prior value was not the literal string `"false"` (which the
source treats as not hidden: it overwrites it with `"true"` and removes the
attribute on release).  In particular a node already carrying
`aria-hidden` (any value other than `"false"`) is remembered as
uncontrolled and its attribute is left untouched. -/
theorem hideOthers_roundTrip_C7_amended {n : Nat} {attr : Option String}
    (h1 : 1 ≤ n) (h2 : attr ≠ some "false") :
    (ariaRoundTrip n attr).ariaHidden = attr := by
  rw [ariaRoundTrip_eq h1 attr]
  cases attr with
  | none => simp [ariaAlreadyHidden]
  | some s =>
    have hs : (s != "false") = true := by
      simp only [bne_iff_ne, ne_eq]
      intro hcon
      exact h2 (by rw [hcon])
    simp [ariaAlreadyHidden, hs]

/-- Claim C7, witness: three overlapping activations and releases over a
node that already carried `aria-hidden="true"` leave the attribute
untouched. -/
theorem hideOthers_roundTrip_C7_witness :
    (ariaRoundTrip 3 (some "true")).ariaHidden = some "true" :=
  hideOthers_roundTrip_C7_amended (by decide) (by decide)

/-! ## Claim C1: nested dismissal -/

/-- Claim C1, counterexample.  With `bubbles = true` (an allowed setting of
the bubbles option), delivering an Escape key-down to an ancestor whose
open child is registered in the tree does invoke the ancestor's
`onOpenChange(false)`: `pairNodes` holds parent `"p"` with an open child
`"c"`, `getChildren` reports the open descendant, yet the escape listener
closes; the ancestor-scroll listener closes unconditionally as well. -/
theorem dismiss_nested_C1_counterexample :
    (getChildren pairNodes (some "p")).length > 0 ∧
    escapeKeyDismisses pairNodes (some "p") true true = true ∧
    ancestorScrollDismisses = true := by
  refine ⟨by decide, by decide, rfl⟩

/-- Claim C1, amended.  Dismissal of an ancestor with an open descendant is
swallowed only when `bubbles = false`: with `bubbles = false` and a
registered tree, both the Escape key-down listener and the outside
pointer-down listener refuse to invoke `onOpenChange(false)` while
`getChildren` reports any open descendant; and a pointer-down whose target
lies inside an open descendant's floating element never closes the
ancestor, for every setting of `bubbles`.  (With `bubbles = true` the
escape and outside-pointer signals do close the ancestor, and the scroll
listener always closes — see the counterexample.) -/
theorem dismiss_nested_C1_amended (nodes : List FloatingNode)
    (nodeId : Option String) (h : getChildren nodes nodeId ≠ []) :
    escapeKeyDismisses nodes nodeId true false = false ∧
    (∀ tf tr inChild,
      outsidePointerDownDismisses nodes nodeId true false tf tr inChild =
        false) ∧
    (∀ bubbles tf tr (inChild : FloatingNode → Bool),
      (getChildren nodes nodeId).any inChild = true →
      outsidePointerDownDismisses nodes nodeId true bubbles tf tr inChild =
        false) := by
  refine ⟨?_, ?_, ?_⟩
  · simp [escapeKeyDismisses, isEmpty_false_of_ne_nil h]
  · intro tf tr inChild
    simp only [outsidePointerDownDismisses, isEmpty_false_of_ne_nil h]
    split
    · rfl
    · simp
  · intro bubbles tf tr inChild hany
    simp [outsidePointerDownDismisses, hany]

/-- Claim C1, witness: the amended swallowing behavior at the concrete
parent/child pair. -/
theorem dismiss_nested_C1_witness :
    getChildren pairNodes (some "p") ≠ [] ∧
    escapeKeyDismisses pairNodes (some "p") true false = false :=
  ⟨by decide, (dismiss_nested_C1_amended pairNodes (some "p") (by decide)).1⟩

/-! ## Claim C3: exactness of the tree queries -/

/-- Claim C3.  For every finite node list whose `parentId` links form a
forest (no node is its own transitive ancestor) and every id:
`getChildren(nodes, id)` returns exactly the transitive descendants of `id`
reachable through nodes whose attached context reports `open === true`
(`OpenDesc`), and `getAncestors(nodes, id)` returns exactly the chain of
parent nodes of `id` up to the root (transitive reachability through the
deterministic parent lookup).  Neither result contains the queried node
itself, and — being stated as a full characterization — both return the
complete transitive closure for chains of any depth, in particular depth
three or more. -/
theorem tree_queries_exact_C3 (nodes : List FloatingNode)
    (hA : AcyclicNodes nodes) :
    (∀ (id : Option String) (n : FloatingNode),
      n ∈ getChildren nodes id ↔ OpenDesc nodes id n) ∧
    (∀ (id : String) (n : FloatingNode),
      n ∈ getChildren nodes (some id) → n.id ≠ id) ∧
    (∀ (id : String) (n : FloatingNode),
      n ∈ getAncestors nodes id ↔
        ∃ s, findNode nodes id = some s ∧
          Relation.TransGen (parentStep nodes) s n) ∧
    (∀ (id : String) (s : FloatingNode),
      findNode nodes id = some s → s ∉ getAncestors nodes id) := by
  refine ⟨fun id n => getChildren_mem_iff hA id n, ?_,
    fun id n => getAncestors_mem_iff hA id n, ?_⟩
  · intro id n hmem heq
    have hdesc := (getChildren_mem_iff hA (some id) n).mp hmem
    obtain ⟨b, hrtg, hb, hbp⟩ := openDesc_chain_base hdesc
    have hpar : parentRel nodes b n :=
      ⟨hb, openDesc_mem hdesc, by rw [hbp, heq]⟩
    exact hA n (Relation.TransGen.tail' hrtg hpar)
  · intro id s hfind hmem
    obtain ⟨s', hfind', htg⟩ := (getAncestors_mem_iff hA id s).mp hmem
    rw [hfind] at hfind'
    have heq : s' = s := Option.some.inj hfind'.symm
    rw [heq] at htg
    exact hA s (transGen_parentStep_to_parentRel (findNode_mem hfind) htg)

/-- Claim C3, witness: on the four-level open chain `a ← b ← c ← d`, the
depth-three descendant `d` is reported by `getChildren(·, "a")` and the
root `a` by `getAncestors(·, "d")`. -/
theorem tree_queries_exact_C3_witness :
    (⟨"d", some "c", some true⟩ : FloatingNode) ∈
      getChildren chainNodes (some "a") ∧
    (⟨"a", none, some true⟩ : FloatingNode) ∈ getAncestors chainNodes "d" := by
  have h := tree_queries_exact_C3 chainNodes
    (@acyclic_of_depthMeasure chainNodes chainDepth (by unfold DepthMeasure; decide))
  constructor
  · have hb : OpenDesc chainNodes (some "a") ⟨"b", some "a", some true⟩ :=
      OpenDesc.base (by decide) rfl rfl
    have hc : OpenDesc chainNodes (some "a") ⟨"c", some "b", some true⟩ :=
      OpenDesc.step hb (by decide) rfl rfl
    have hd : OpenDesc chainNodes (some "a") ⟨"d", some "c", some true⟩ :=
      OpenDesc.step hc (by decide) rfl rfl
    exact (h.1 (some "a") _).mpr hd
  · have h1 : parentStep chainNodes ⟨"d", some "c", some true⟩
        ⟨"c", some "b", some true⟩ := by unfold parentStep; decide
    have h2 : parentStep chainNodes ⟨"c", some "b", some true⟩
        ⟨"b", some "a", some true⟩ := by unfold parentStep; decide
    have h3 : parentStep chainNodes ⟨"b", some "a", some true⟩
        ⟨"a", none, some true⟩ := by unfold parentStep; decide
    exact (h.2.2.1 "d" _).mpr
      ⟨⟨"d", some "c", some true⟩, by decide,
        ((Relation.TransGen.single h1).tail h2).tail h3⟩

/-! ## Claim C10: termination of the tree traversals -/

/-- Claim C10.  `getChildren` and `getAncestors` terminate for every finite
node list in which no node is its own transitive ancestor via `parentId`
links: both source loops walk `parentId` links with no visited-set, and
under the acyclicity precondition each fueled embedding reaches the loop's
natural exit condition within the allotted fuel (`nodes.length`
levels, resp. `nodes.length + 1` parent steps), for every queried id. -/
theorem tree_loops_terminate_C10 (nodes : List FloatingNode)
    (hA : AcyclicNodes nodes) :
    (∀ id : Option String, getChildrenTerminates nodes id = true) ∧
    (∀ id : String, getAncestorsTerminates nodes id = true) := by
  constructor
  · intro id
    exact childLoop_completes hA (fun _ hx => (List.mem_filter.mp hx).1)
  · intro id
    exact ancLoop_completes hA _

/-- Claim C10, witness: both traversals of the four-level chain complete. -/
theorem tree_loops_terminate_C10_witness :
    getChildrenTerminates chainNodes (some "a") = true ∧
    getAncestorsTerminates chainNodes "d" = true := by
  have h := tree_loops_terminate_C10 chainNodes
    (@acyclic_of_depthMeasure chainNodes chainDepth (by unfold DepthMeasure; decide))
  exact ⟨h.1 (some "a"), h.2 "d"⟩

/-! ## List navigation lemmas -/

theorem findIndexLoop_succ_up (list : List (Option ListItem))
    (dis : Option (List Int)) (fuel : Nat) (index : Int) :
    findIndexLoop list dis false (fuel + 1) index =
      if decide (0 ≤ index + 1) &&
          decide (index + 1 ≤ (list.length : Int) - 1) &&
          itemIsDisabled list dis (index + 1) then
        findIndexLoop list dis false fuel (index + 1)
      else index + 1 := by
  rw [findIndexLoop]
  norm_num

theorem findIndexLoop_succ_down (list : List (Option ListItem))
    (dis : Option (List Int)) (fuel : Nat) (index : Int) :
    findIndexLoop list dis true (fuel + 1) index =
      if decide (0 ≤ index - 1) &&
          decide (index - 1 ≤ (list.length : Int) - 1) &&
          itemIsDisabled list dis (index - 1) then
        findIndexLoop list dis true fuel (index - 1)
      else index - 1 := by
  rw [findIndexLoop]
  norm_num [Int.sub_eq_add_neg]

/-- Exit property of the forward walk: an in-bounds result is never
disabled (given enough fuel relative to the start). -/
theorem findIndexLoop_up_exit (list : List (Option ListItem))
    (dis : Option (List Int)) :
    ∀ (fuel : Nat) (index : Int),
      (list.length : Int) ≤ index + fuel →
      ¬(0 ≤ findIndexLoop list dis false fuel index ∧
        findIndexLoop list dis false fuel index ≤ (list.length : Int) - 1 ∧
        itemIsDisabled list dis (findIndexLoop list dis false fuel index) =
          true) := by
  intro fuel
  induction fuel with
  | zero =>
    intro index hb
    rw [findIndexLoop]
    rintro ⟨h0, h1, _⟩
    omega
  | succ fuel ih =>
    intro index hb
    rw [findIndexLoop_succ_up]
    by_cases hc : (decide (0 ≤ index + 1) &&
        decide (index + 1 ≤ (list.length : Int) - 1) &&
        itemIsDisabled list dis (index + 1)) = true
    · rw [if_pos hc]
      exact ih (index + 1) (by omega)
    · rw [if_neg hc]
      rintro ⟨h0, h1, h2⟩
      exact hc (by simp [h0, h1, h2])

/-- Exit property of the backward walk. -/
theorem findIndexLoop_down_exit (list : List (Option ListItem))
    (dis : Option (List Int)) :
    ∀ (fuel : Nat) (index : Int),
      index + 1 ≤ fuel →
      ¬(0 ≤ findIndexLoop list dis true fuel index ∧
        findIndexLoop list dis true fuel index ≤ (list.length : Int) - 1 ∧
        itemIsDisabled list dis (findIndexLoop list dis true fuel index) =
          true) := by
  intro fuel
  induction fuel with
  | zero =>
    intro index hb
    rw [findIndexLoop]
    rintro ⟨h0, _, _⟩
    omega
  | succ fuel ih =>
    intro index hb
    rw [findIndexLoop_succ_down]
    by_cases hc : (decide (0 ≤ index - 1) &&
        decide (index - 1 ≤ (list.length : Int) - 1) &&
        itemIsDisabled list dis (index - 1)) = true
    · rw [if_pos hc]
      refine ih (index - 1) ?_
      have := (Bool.and_eq_true .. ▸ hc).1
      omega
    · rw [if_neg hc]
      rintro ⟨h0, h1, h2⟩
      exact hc (by simp [h0, h1, h2])

/-- The forward walk strictly increases the index. -/
theorem findIndexLoop_up_gt (list : List (Option ListItem))
    (dis : Option (List Int)) :
    ∀ (fuel : Nat) (index : Int), 1 ≤ fuel →
      (list.length : Int) ≤ index + fuel →
      index < findIndexLoop list dis false fuel index := by
  intro fuel
  induction fuel with
  | zero => omega
  | succ fuel ih =>
    intro index _ hb
    rw [findIndexLoop_succ_up]
    by_cases hc : (decide (0 ≤ index + 1) &&
        decide (index + 1 ≤ (list.length : Int) - 1) &&
        itemIsDisabled list dis (index + 1)) = true
    · rw [if_pos hc]
      rcases Nat.eq_zero_or_pos fuel with rfl | hf
      · exfalso
        simp only [Bool.and_eq_true, decide_eq_true_eq] at hc
        omega
      · exact lt_trans (by omega) (ih (index + 1) hf (by omega))
    · rw [if_neg hc]
      omega

/-- The backward walk strictly decreases the index. -/
theorem findIndexLoop_down_lt (list : List (Option ListItem))
    (dis : Option (List Int)) :
    ∀ (fuel : Nat) (index : Int), 1 ≤ fuel → index + 1 ≤ fuel →
      findIndexLoop list dis true fuel index < index := by
  intro fuel
  induction fuel with
  | zero => omega
  | succ fuel ih =>
    intro index _ hb
    rw [findIndexLoop_succ_down]
    by_cases hc : (decide (0 ≤ index - 1) &&
        decide (index - 1 ≤ (list.length : Int) - 1) &&
        itemIsDisabled list dis (index - 1)) = true
    · rw [if_pos hc]
      rcases Nat.eq_zero_or_pos fuel with rfl | hf
      · exfalso
        simp only [Bool.and_eq_true, decide_eq_true_eq] at hc
        omega
      · refine lt_trans (ih (index - 1) hf ?_) (by omega)
        simp only [Bool.and_eq_true, decide_eq_true_eq] at hc
        omega
    · rw [if_neg hc]
      omega

/-- An in-bounds result of `findNonDisabledIndex` is never disabled. -/
theorem findNonDisabledIndex_not_disabled (list : List (Option ListItem))
    (dis : Option (List Int)) (start : Int) (dec : Bool)
    (h0 : 0 ≤ findNonDisabledIndex list dis start dec)
    (h1 : findNonDisabledIndex list dis start dec ≤ (list.length : Int) - 1) :
    itemIsDisabled list dis (findNonDisabledIndex list dis start dec) =
      false := by
  cases dec with
  | false =>
    by_cases hstart : -2 ≤ start
    · have hx := findIndexLoop_up_exit list dis (list.length + 2) start
        (by push_cast; omega)
      rw [findNonDisabledIndex]
      by_contra h2
      rw [Bool.not_eq_false] at h2
      exact hx ⟨h0, h1, h2⟩
    · exfalso
      rw [findNonDisabledIndex,
        show list.length + 2 = list.length + 1 + 1 from rfl,
        findIndexLoop_succ_up] at h0
      have hcf : (decide (0 ≤ start + 1) &&
          decide (start + 1 ≤ (list.length : Int) - 1) &&
          itemIsDisabled list dis (start + 1)) = false := by
        have hx : ¬ (0 ≤ start + 1) := by omega
        simp [hx]
      rw [hcf] at h0
      simp only [Bool.false_eq_true, if_false] at h0
      omega
  | true =>
    by_cases hstart : start ≤ (list.length : Int) + 1
    · have hx := findIndexLoop_down_exit list dis (list.length + 2) start
        (by push_cast; omega)
      rw [findNonDisabledIndex]
      by_contra h2
      rw [Bool.not_eq_false] at h2
      exact hx ⟨h0, h1, h2⟩
    · exfalso
      rw [findNonDisabledIndex,
        show list.length + 2 = list.length + 1 + 1 from rfl,
        findIndexLoop_succ_down] at h1
      have hcf : (decide (0 ≤ start - 1) &&
          decide (start - 1 ≤ (list.length : Int) - 1) &&
          itemIsDisabled list dis (start - 1)) = false := by
        have hx : ¬ (start - 1 ≤ (list.length : Int) - 1) := by omega
        simp [hx]
      rw [hcf] at h1
      simp only [Bool.false_eq_true, if_false] at h1
      omega

/-- A forward `findNonDisabledIndex` strictly increases the index. -/
theorem findNonDisabledIndex_gt (list : List (Option ListItem))
    (dis : Option (List Int)) (start : Int) :
    start < findNonDisabledIndex list dis start false := by
  by_cases hstart : -2 ≤ start
  · exact findIndexLoop_up_gt list dis (list.length + 2) start (by omega)
      (by push_cast; omega)
  · rw [findNonDisabledIndex,
      show list.length + 2 = list.length + 1 + 1 from rfl,
      findIndexLoop_succ_up]
    have hcf : (decide (0 ≤ start + 1) &&
        decide (start + 1 ≤ (list.length : Int) - 1) &&
        itemIsDisabled list dis (start + 1)) = false := by
      have hx : ¬ (0 ≤ start + 1) := by omega
      simp [hx]
    rw [hcf]
    simp only [Bool.false_eq_true, if_false]
    omega

/-- A backward `findNonDisabledIndex` strictly decreases the index. -/
theorem findNonDisabledIndex_lt (list : List (Option ListItem))
    (dis : Option (List Int)) (start : Int) :
    findNonDisabledIndex list dis start true < start := by
  by_cases hstart : start ≤ (list.length : Int) + 1
  · exact findIndexLoop_down_lt list dis (list.length + 2) start (by omega)
      (by push_cast; omega)
  · rw [findNonDisabledIndex,
      show list.length + 2 = list.length + 1 + 1 from rfl,
      findIndexLoop_succ_down]
    have hcf : (decide (0 ≤ start - 1) &&
        decide (start - 1 ≤ (list.length : Int) - 1) &&
        itemIsDisabled list dis (start - 1)) = false := by
      have hx : ¬ (start - 1 ≤ (list.length : Int) - 1) := by omega
      simp [hx]
    rw [hcf]
    simp only [Bool.false_eq_true, if_false]
    omega

/-! ## Claim C8: boundary behavior of main-orientation navigation -/

/-- Claim C8, counterexample.  On a three-item fully enabled list
(`getMaxIndex = 2`), a forward main-orientation press at the boundary with
`loop` and `allowEscape` set but `virtual = false` produces the sentinel
`-1` (with `onNavigate(null)`): the claim instead requires no escape at all
when `virtual` is off (a wrap to index `0`), and names `length` (`3`) as
the forward-escape sentinel. -/
theorem listNav_boundary_C8_counterexample :
    getMaxIndex threeItems none = 2 ∧
    mainOrientationKeyDown threeItems none true true false true false true 2 =
      (-1, none) ∧
    (-1 : Int) ≠ 0 ∧ (-1 : Int) ≠ 3 := by
  refine ⟨by decide, by decide, by decide, by decide⟩

/-- Claim C8, amended.  For every list and main-orientation key press whose
current index is already at the relevant boundary (the min/max non-disabled
index, assumed in bounds), with the focused-list reset branch off: when
`loop` is set the active index wraps to the opposite end unless `allowEscape`
is also set, in which case it becomes the out-of-bounds sentinel — `-1` for
a forward press and `length` for a backward press, irrespective of
`virtual` — and `onNavigate` is called with `null`; when `loop` is not set
the index is clamped at the boundary. -/
theorem listNav_boundary_C8_amended (list : List (Option ListItem))
    (dis : Option (List Int)) (virtual openState allowEscape : Bool)
    (hmax0 : 0 ≤ getMaxIndex list dis)
    (hmax1 : getMaxIndex list dis ≤ (list.length : Int) - 1)
    (hmin0 : 0 ≤ getMinIndex list dis)
    (hmin1 : getMinIndex list dis ≤ (list.length : Int) - 1) :
    (mainOrientationKeyDown list dis true true virtual openState false true
        (getMaxIndex list dis) = (-1, none)) ∧
    (mainOrientationKeyDown list dis true false virtual openState false true
        (getMaxIndex list dis) =
      (getMinIndex list dis, some (getMinIndex list dis))) ∧
    (mainOrientationKeyDown list dis false allowEscape virtual openState false
        true (getMaxIndex list dis) =
      (getMaxIndex list dis, some (getMaxIndex list dis))) ∧
    (mainOrientationKeyDown list dis true true virtual openState false false
        (getMinIndex list dis) = ((list.length : Int), none)) ∧
    (mainOrientationKeyDown list dis true false virtual openState false false
        (getMinIndex list dis) =
      (getMaxIndex list dis, some (getMaxIndex list dis))) ∧
    (mainOrientationKeyDown list dis false allowEscape virtual openState false
        false (getMinIndex list dis) =
      (getMinIndex list dis, some (getMinIndex list dis))) := by
  have hne : getMaxIndex list dis ≠ (list.length : Int) := by omega
  have hne2 : getMinIndex list dis ≠ (-1 : Int) := by omega
  have hoobMin : isIndexOutOfBounds list (getMinIndex list dis) = false := by
    simp only [isIndexOutOfBounds, Bool.or_eq_false_iff,
      decide_eq_false_iff_not]
    omega
  have hoobMax : isIndexOutOfBounds list (getMaxIndex list dis) = false := by
    simp only [isIndexOutOfBounds, Bool.or_eq_false_iff,
      decide_eq_false_iff_not]
    omega
  have hclampF : min (getMaxIndex list dis)
      (findNonDisabledIndex list dis (getMaxIndex list dis) false) =
      getMaxIndex list dis :=
    min_eq_left (le_of_lt (findNonDisabledIndex_gt list dis _))
  have hclampB : max (getMinIndex list dis)
      (findNonDisabledIndex list dis (getMinIndex list dis) true) =
      getMinIndex list dis :=
    max_eq_left (le_of_lt (findNonDisabledIndex_lt list dis _))
  refine ⟨?_, ?_, ?_, ?_, ?_, ?_⟩ <;>
    simp [mainOrientationKeyDown, hne, hne2, hoobMin, hoobMax, hclampF,
      hclampB, isIndexOutOfBounds] <;>
    omega

/-- Claim C8, witness: wrap of the amended behavior on the three-item list
(forward from the boundary index 2 with `loop` and no `allowEscape` wraps
to 0). -/
theorem listNav_boundary_C8_witness :
    mainOrientationKeyDown threeItems none true false false true false true 2 =
      (0, some 0) := by
  have h := listNav_boundary_C8_amended threeItems none false true false
    (by decide) (by decide) (by decide) (by decide)
  have e1 : getMaxIndex threeItems none = 2 := by decide
  have e2 : getMinIndex threeItems none = 0 := by decide
  rw [e1, e2] at h
  exact h.2.1

/-! ## Claim C9: the activeIndex invariant -/

theorem pred_ite {c : Prop} [Decidable c] (P : Int → Prop) {a b : Int}
    (ha : P a) (hb : P b) : P (if c then a else b) := by
  by_cases h : c
  · rwa [if_pos h]
  · rwa [if_neg h]

theorem navigate_guard_sound (list : List (Option ListItem))
    (dis : Option (List Int)) (X : Int) (hX : NavSafe list dis X) :
    ∀ i : Int,
      (if isIndexOutOfBounds list X then none else some X) = some i →
      (0 ≤ i ∧ i ≤ (list.length : Int) - 1) ∧
        itemIsDisabled list dis i = false := by
  intro i h
  by_cases hoob : isIndexOutOfBounds list X = true
  · rw [if_pos hoob] at h
    exact absurd h (by simp)
  · rw [Bool.not_eq_true] at hoob
    rw [hoob] at h
    simp only [Bool.false_eq_true, if_false, Option.some.injEq] at h
    obtain rfl : i = X := h.symm
    simp only [isIndexOutOfBounds, Bool.or_eq_false_iff,
      decide_eq_false_iff_not] at hoob
    have h0 : 0 ≤ i := by omega
    have h1 : i ≤ (list.length : Int) - 1 := by omega
    exact ⟨⟨h0, h1⟩, hX h0 h1⟩

/-- In-bounds min/max indices are never disabled. -/
theorem minMaxIndex_not_disabled (list : List (Option ListItem))
    (dis : Option (List Int)) :
    (0 ≤ getMinIndex list dis → getMinIndex list dis ≤ (list.length : Int) - 1 →
      itemIsDisabled list dis (getMinIndex list dis) = false) ∧
    (0 ≤ getMaxIndex list dis → getMaxIndex list dis ≤ (list.length : Int) - 1 →
      itemIsDisabled list dis (getMaxIndex list dis) = false) :=
  ⟨fun h0 h1 => findNonDisabledIndex_not_disabled list dis (-1) false h0 h1,
   fun h0 h1 =>
     findNonDisabledIndex_not_disabled list dis (list.length : Int) true h0 h1⟩

theorem min_clamp_not_disabled (list : List (Option ListItem))
    (dis : Option (List Int)) (current : Int) :
    0 ≤ min (getMaxIndex list dis)
        (findNonDisabledIndex list dis current false) →
    min (getMaxIndex list dis) (findNonDisabledIndex list dis current false) ≤
      (list.length : Int) - 1 →
    itemIsDisabled list dis
      (min (getMaxIndex list dis)
        (findNonDisabledIndex list dis current false)) = false := by
  rcases min_cases (getMaxIndex list dis)
      (findNonDisabledIndex list dis current false) with ⟨he, _⟩ | ⟨he, _⟩ <;>
    rw [he] <;> intro h0 h1
  · exact (minMaxIndex_not_disabled list dis).2 h0 h1
  · exact findNonDisabledIndex_not_disabled list dis current false h0 h1

theorem max_clamp_not_disabled (list : List (Option ListItem))
    (dis : Option (List Int)) (current : Int) :
    0 ≤ max (getMinIndex list dis)
        (findNonDisabledIndex list dis current true) →
    max (getMinIndex list dis) (findNonDisabledIndex list dis current true) ≤
      (list.length : Int) - 1 →
    itemIsDisabled list dis
      (max (getMinIndex list dis)
        (findNonDisabledIndex list dis current true)) = false := by
  rcases max_cases (getMinIndex list dis)
      (findNonDisabledIndex list dis current true) with ⟨he, _⟩ | ⟨he, _⟩ <;>
    rw [he] <;> intro h0 h1
  · exact (minMaxIndex_not_disabled list dis).1 h0 h1
  · exact findNonDisabledIndex_not_disabled list dis current true h0 h1

/-- Claim C9, counterexample.  With `focusItemOnHover`, moving the mouse
over the second item (handle `11`) of a two-item list whose index `1` is in
`disabledIndices` reports `onNavigate(1)` — a non-null active index that is
a disabled index; and a Home press on a fully disabled three-item list
reports the out-of-bounds non-null index `3`. -/
theorem listNav_activeIndex_C9_counterexample :
    itemOnMouseMoveNavigate [some 10, some 11] 11 = some 1 ∧
    itemIsDisabled twoItems (some [1]) 1 = true ∧
    homeEndKeyDown threeItems (some [0, 1, 2]) false = (3, some 3) ∧
    isIndexOutOfBounds threeItems 3 = true := by
  refine ⟨by decide, by decide, by decide, by decide⟩

/-- Claim C9, amended.  The invariant holds on the arrow-key path: for
every main-orientation key press (focused-list reset branch off), a
non-null index passed to `onNavigate` is in bounds and not disabled —
out-of-bounds results are reported as `null`.  Home/End report the min/max
walk result without a bounds guard, but whenever that index is in bounds it
is not disabled.  The item focus and hover handlers report the item's index
with no disabled check at all (see the counterexample). -/
theorem listNav_activeIndex_C9_amended (list : List (Option ListItem))
    (dis : Option (List Int))
    (loop allowEscape virtual openState forward : Bool) (current : Int) :
    (∀ i : Int,
      (mainOrientationKeyDown list dis loop allowEscape virtual openState
        false forward current).2 = some i →
      (0 ≤ i ∧ i ≤ (list.length : Int) - 1) ∧
        itemIsDisabled list dis i = false) ∧
    (∀ (isEnd : Bool) (i : Int),
      (homeEndKeyDown list dis isEnd).2 = some i →
      0 ≤ i → i ≤ (list.length : Int) - 1 →
      itemIsDisabled list dis i = false) := by
  constructor
  · simp only [mainOrientationKeyDown, Bool.and_false, Bool.false_eq_true,
      if_false]
    refine navigate_guard_sound list dis _ ?_
    refine pred_ite (NavSafe list dis)
      (pred_ite (NavSafe list dis)
        (pred_ite (NavSafe list dis)
          (pred_ite (NavSafe list dis)
            (fun h0 _ => absurd h0 (by omega)) ?_) ?_)
        ?_)
      (pred_ite (NavSafe list dis)
        (pred_ite (NavSafe list dis)
          (pred_ite (NavSafe list dis)
            (fun _ h1 => absurd h1 (by omega)) ?_) ?_)
        ?_)
    · exact (minMaxIndex_not_disabled list dis).1
    · exact findNonDisabledIndex_not_disabled list dis current false
    · exact min_clamp_not_disabled list dis current
    · exact (minMaxIndex_not_disabled list dis).2
    · exact findNonDisabledIndex_not_disabled list dis current true
    · exact max_clamp_not_disabled list dis current
  · intro isEnd i h
    simp only [homeEndKeyDown, Option.some.injEq] at h
    subst h
    cases isEnd with
    | true =>
      intro h0 h1
      exact findNonDisabledIndex_not_disabled list dis (list.length : Int)
        true h0 h1
    | false =>
      intro h0 h1
      exact findNonDisabledIndex_not_disabled list dis (-1) false h0 h1

/-- Claim C9, witness: a forward press from index 0 on a three-item list
with index 1 disabled navigates to index 2 — in bounds and enabled. -/
theorem listNav_activeIndex_C9_witness :
    (0 ≤ (2 : Int) ∧ (2 : Int) ≤ (threeItems.length : Int) - 1) ∧
    itemIsDisabled threeItems (some [1]) 2 = false :=
  (listNav_activeIndex_C9_amended threeItems (some [1]) false false false true
    true 0).1 2 (by decide)

/-! ## Claim C5: the 49-item walk -/

/-- Claim C5.  With `loop = true` and
`disabledIndices = {0,1,2,5,10,15,46,47,48}` over a 49-item list, the first
and last non-disabled indices are 3 and 45; repeatedly pressing the forward
main-orientation key starting from index 3 only ever navigates to in-bounds
indices outside the disabled set (`findNonDisabledIndex` skips every
disabled index in its walk), and a forward press from the last non-disabled
index 45 wraps the active index to the first non-disabled index 3. -/
theorem listNav_walk_C5 :
    getMinIndex items49 (some disabled49) = 3 ∧
    getMaxIndex items49 (some disabled49) = 45 ∧
    (∀ n : Nat, good49 (forwardPress49^[n] 3) = true) ∧
    forwardPress49 45 = 3 := by
  have hb : ∀ m : Nat, m < 49 →
      (good49 (m : Int) = true → good49 (forwardPress49 (m : Int)) = true) := by
    decide
  have hclosure : ∀ i : Int, good49 i = true →
      good49 (forwardPress49 i) = true := by
    intro i hi
    have h0 : 0 ≤ i ∧ i < 49 := by
      simp only [good49, Bool.and_eq_true, decide_eq_true_eq] at hi
      exact ⟨hi.1.1, hi.1.2⟩
    obtain ⟨m, rfl⟩ : ∃ m : Nat, i = (m : Int) := ⟨i.toNat, by omega⟩
    have hm : m < 49 := by exact_mod_cast h0.2
    exact hb m hm hi
  refine ⟨by decide, by decide, ?_, by decide⟩
  intro n
  induction n with
  | zero => decide
  | succ n ih =>
    rw [Function.iterate_succ_apply']
    exact hclosure _ ih

/-! ## Merge engine lemmas -/

theorem getAssoc_mapSet_self {A : Type} (k : String) (v : A) :
    ∀ (l : List (String × A)), l.any (fun p => p.1 == k) = true →
      getAssoc (l.map (fun p => if p.1 == k then (k, v) else p)) k = some v := by
  intro l
  induction l with
  | nil => intro h; simp at h
  | cons p l ih =>
    intro h
    rw [List.map_cons]
    by_cases hp : (p.1 == k) = true
    · rw [if_pos hp]
      rw [getAssoc,
        List.find?_cons_of_pos (p := fun (q : String × A) => q.1 == k) _ (by simp)]
      rfl
    · rw [if_neg hp]
      rw [getAssoc, List.find?_cons_of_neg (p := fun (q : String × A) => q.1 == k) _ hp]
      have h' : l.any (fun p => p.1 == k) = true := by
        rcases List.any_eq_true.mp h with ⟨x, hx, hxk⟩
        rcases List.mem_cons.mp hx with rfl | hxl
        · exact absurd hxk hp
        · exact List.any_eq_true.mpr ⟨x, hxl, hxk⟩
      have hih := ih h'
      rw [getAssoc] at hih
      exact hih

theorem getAssoc_append_single_self {A : Type} (k : String) (v : A)
    (l : List (String × A)) (h : l.any (fun p => p.1 == k) = false) :
    getAssoc (l ++ [(k, v)]) k = some v := by
  rw [getAssoc, List.find?_append]
  have hnone : l.find? (fun p => p.1 == k) = none :=
    List.find?_eq_none.mpr (fun x hx => by
      have := List.any_eq_false.mp h x hx
      simpa using this)
  rw [hnone]
  simp [List.find?]

theorem getAssoc_setAssoc_self {A : Type} (l : List (String × A))
    (k : String) (v : A) : getAssoc (setAssoc l k v) k = some v := by
  rw [setAssoc]
  split
  case isTrue h => exact getAssoc_mapSet_self k v l h
  case isFalse h =>
    exact getAssoc_append_single_self k v l (by rwa [Bool.not_eq_true] at h)

theorem getAssoc_mapSet_ne {A : Type} (k : String) (v : A) (k' : String)
    (hne : k' ≠ k) :
    ∀ (l : List (String × A)),
      getAssoc (l.map (fun p => if p.1 == k then (k, v) else p)) k' =
        getAssoc l k' := by
  intro l
  induction l with
  | nil => rfl
  | cons p l ih =>
    rw [List.map_cons]
    by_cases hp : (p.1 == k) = true
    · rw [if_pos hp]
      have hpk : p.1 = k := by simpa using hp
      have h1 : ¬ (((k, v).1 == k') = true) := by
        simp only [beq_iff_eq]
        exact fun hh => hne hh.symm
      have h2 : ¬ ((p.1 == k') = true) := by
        simp only [beq_iff_eq, hpk]
        exact fun hh => hne hh.symm
      rw [getAssoc, List.find?_cons_of_neg (p := fun (q : String × A) => q.1 == k') _ h1]
      rw [getAssoc, List.find?_cons_of_neg (p := fun (q : String × A) => q.1 == k') _ h2]
      have hih := ih
      rw [getAssoc, getAssoc] at hih
      exact hih
    · rw [if_neg hp]
      by_cases hq : (p.1 == k') = true
      · rw [getAssoc, List.find?_cons_of_pos (p := fun (q : String × A) => q.1 == k') _ hq]
        rw [getAssoc, List.find?_cons_of_pos (p := fun (q : String × A) => q.1 == k') _ hq]
      · rw [getAssoc, List.find?_cons_of_neg (p := fun (q : String × A) => q.1 == k') _ hq]
        rw [getAssoc, List.find?_cons_of_neg (p := fun (q : String × A) => q.1 == k') _ hq]
        have hih := ih
        rw [getAssoc, getAssoc] at hih
        exact hih

theorem getAssoc_append_single_ne {A : Type} (k : String) (v : A)
    (k' : String) (hne : k' ≠ k) (l : List (String × A)) :
    getAssoc (l ++ [(k, v)]) k' = getAssoc l k' := by
  rw [getAssoc, List.find?_append, getAssoc]
  cases hfind : l.find? (fun p => p.1 == k') with
  | some x => rfl
  | none =>
    have h1 : ¬ (((k, v).1 == k') = true) := by
      simp only [beq_iff_eq]
      exact fun hh => hne hh.symm
    simp [List.find?, h1]

theorem getAssoc_setAssoc_ne {A : Type} (l : List (String × A))
    (k : String) (v : A) (k' : String) (hne : k' ≠ k) :
    getAssoc (setAssoc l k v) k' = getAssoc l k' := by
  rw [setAssoc]
  split
  · exact getAssoc_mapSet_ne k v k' hne l
  · exact getAssoc_append_single_ne k v k' hne l

theorem getAssoc_nil {A : Type} (k : String) :
    getAssoc ([] : List (String × A)) k = none := rfl

theorem getAssoc_foldl_setAssoc {A B : Type} (g : B → A) (k : String) :
    ∀ (xs : List (String × B)) (init : List (String × A)),
      getAssoc (xs.foldl (fun l kv => setAssoc l kv.1 (g kv.2)) init) k =
        match lastWrite k xs with
        | some v => some (g v)
        | none => getAssoc init k := by
  intro xs
  induction xs with
  | nil => intro init; rfl
  | cons kv xs ih =>
    intro init
    rw [List.foldl_cons, ih, lastWrite]
    cases hlw : lastWrite k xs with
    | some v => rfl
    | none =>
      by_cases hk : (kv.1 == k) = true
      · have hkk : kv.1 = k := by simpa using hk
        rw [hk]
        simp only [if_true]
        rw [← hkk, getAssoc_setAssoc_self]
      · have hne : k ≠ kv.1 := by
          intro hcon
          exact hk (by simp [hcon])
        rw [getAssoc_setAssoc_ne _ _ _ _ hne]
        simp only [hk]
        rfl

theorem getAssoc_foldl_setAssoc_id {A : Type} (k : String)
    (xs : List (String × A)) (init : List (String × A)) :
    getAssoc (xs.foldl (fun l kv => setAssoc l kv.1 kv.2) init) k =
      match lastWrite k xs with
      | some v => some v
      | none => getAssoc init k :=
  getAssoc_foldl_setAssoc (fun v => v) k xs init

theorem mergeMap_foldl {H : Type} (k : String) :
    ∀ (stream : PropsObj H) (st : MergeState H),
      (getAssoc (stream.foldl processEntry st).map k).getD [] =
        (getAssoc st.map k).getD [] ++ onFns k stream := by
  intro stream
  induction stream with
  | nil => intro st; simp [onFns]
  | cons kv xs ih =>
    intro st
    rw [List.foldl_cons, ih, onFns]
    have hstep : (getAssoc (processEntry st kv).map k).getD [] =
        (getAssoc st.map k).getD [] ++
          (if isOnKey kv.1 && kv.1 == k then
            (match kv.2 with | .fn h => [h] | _ => [])
          else []) := by
      cases hOn : isOnKey kv.1 with
      | false =>
        simp only [processEntry, hOn, Bool.false_eq_true, if_false,
          Bool.false_and, List.append_nil]
      | true =>
        simp only [processEntry, hOn, if_true, Bool.true_and]
        by_cases hk : (kv.1 == k) = true
        · have hkk : kv.1 = k := by simpa using hk
          subst hkk
          rw [getAssoc_setAssoc_self, hk]
          simp only [if_true, Option.getD_some]
          cases kv.2 with
          | fn h => rfl
          | raw s => simp
          | num n => simp
        · have hne : k ≠ kv.1 := by
            intro hcon
            exact hk (by simp [hcon])
          rw [getAssoc_setAssoc_ne _ _ _ _ hne]
          simp only [hk, Bool.false_eq_true, if_false, List.append_nil]
    rw [hstep, List.append_assoc]

theorem mergeAcc_foldl {H : Type} (k : String) :
    ∀ (stream : PropsObj H) (st : MergeState H),
      getAssoc (stream.foldl processEntry st).acc k =
        match lastOut k stream with
        | some v => some v
        | none => getAssoc st.acc k := by
  intro stream
  induction stream with
  | nil => intro st; rfl
  | cons kv xs ih =>
    intro st
    rw [List.foldl_cons, ih, lastOut]
    cases hlo : lastOut k xs with
    | some v => rfl
    | none =>
      have hacc : (processEntry st kv).acc =
          setAssoc st.acc kv.1
            (if isOnKey kv.1 then .dispatch else .val kv.2) := by
        cases hOn : isOnKey kv.1 with
        | true => simp [processEntry, hOn]
        | false => simp [processEntry, hOn]
      rw [hacc]
      by_cases hk : (kv.1 == k) = true
      · have hkk : kv.1 = k := by simpa using hk
        subst hkk
        rw [getAssoc_setAssoc_self, hk]
        rfl
      · have hne : k ≠ kv.1 := by
          intro hcon
          exact hk (by simp [hcon])
        rw [getAssoc_setAssoc_ne _ _ _ _ hne]
        simp only [hk]
        rfl

theorem setAssoc_keys_nodup {A : Type} (l : List (String × A)) (k : String)
    (v : A) (h : (l.map Prod.fst).Nodup) :
    ((setAssoc l k v).map Prod.fst).Nodup := by
  rw [setAssoc]
  split
  case isTrue hany =>
    have heq : (l.map (fun p => if p.1 == k then (k, v) else p)).map Prod.fst =
        l.map Prod.fst := by
      rw [List.map_map]
      refine List.map_congr_left ?_
      intro p _
      by_cases hp : (p.1 == k) = true
      · have : p.1 = k := by simpa using hp
        simp [Function.comp, hp, this]
      · simp [Function.comp, hp]
    rwa [heq]
  case isFalse hany =>
    rw [Bool.not_eq_true] at hany
    rw [List.map_append]
    have hnotin : k ∉ l.map Prod.fst := by
      intro hmem
      obtain ⟨p, hp, hpk⟩ := List.mem_map.mp hmem
      have := List.any_eq_false.mp hany p hp
      simp [hpk] at this
    simp only [List.map_cons, List.map_nil]
    rw [List.nodup_append]
    refine ⟨h, List.nodup_singleton k, ?_⟩
    intro x hx hk1
    simp only [List.mem_singleton] at hk1
    subst hk1
    exact hnotin hx

theorem processEntry_acc_keys_nodup {H : Type} :
    ∀ (stream : PropsObj H) (st : MergeState H),
      (st.acc.map Prod.fst).Nodup →
      (((stream.foldl processEntry st).acc).map Prod.fst).Nodup := by
  intro stream
  induction stream with
  | nil => intro st h; exact h
  | cons kv xs ih =>
    intro st h
    rw [List.foldl_cons]
    refine ih (processEntry st kv) ?_
    cases hOn : isOnKey kv.1 with
    | true =>
      simp only [processEntry, hOn, if_true]
      exact setAssoc_keys_nodup _ _ _ h
    | false =>
      simp only [processEntry, hOn, Bool.false_eq_true, if_false]
      exact setAssoc_keys_nodup _ _ _ h

theorem lastWrite_none_of_not_mem {A : Type} (k : String) :
    ∀ (l : List (String × A)), k ∉ l.map Prod.fst → lastWrite k l = none := by
  intro l
  induction l with
  | nil => intro _; rfl
  | cons kv xs ih =>
    intro h
    rw [List.map_cons, List.mem_cons] at h
    push_neg at h
    rw [lastWrite, ih h.2]
    have : (kv.1 == k) = false := by
      simp only [beq_eq_false_iff_ne, ne_eq]
      exact fun hc => h.1 hc.symm
    rw [this]
    rfl

theorem lastWrite_eq_getAssoc_of_nodup {A : Type} (k : String) :
    ∀ (l : List (String × A)), (l.map Prod.fst).Nodup →
      lastWrite k l = getAssoc l k := by
  intro l
  induction l with
  | nil => intro _; rfl
  | cons kv xs ih =>
    intro h
    rw [List.map_cons, List.nodup_cons] at h
    rw [lastWrite]
    by_cases hk : (kv.1 == k) = true
    · have hkk : kv.1 = k := by simpa using hk
      have hnone : lastWrite k xs = none := by
        refine lastWrite_none_of_not_mem k xs ?_
        rw [← hkk]
        exact h.1
      rw [hnone, hk]
      simp only [if_true]
      rw [getAssoc, List.find?_cons_of_pos (p := fun (q : String × A) => q.1 == k) _ hk]
      rfl
    · rw [getAssoc, List.find?_cons_of_neg (p := fun (q : String × A) => q.1 == k) _ hk]
      have hih := ih h.2
      rw [getAssoc] at hih
      cases hlw : lastWrite k xs with
      | some v =>
        rw [hlw] at hih
        simpa using hih
      | none =>
        rw [hlw] at hih
        simp only [hk, Bool.false_eq_true, if_false]
        exact hih

theorem lastOut_isOn {H : Type} (k : String) (h : isOnKey k = true) :
    ∀ (stream : PropsObj H),
      lastOut k stream =
        if stream.any (fun e => e.1 == k) then some .dispatch else none := by
  intro stream
  induction stream with
  | nil => rfl
  | cons kv xs ih =>
    rw [lastOut, ih, List.any_cons]
    by_cases hx : xs.any (fun e => e.1 == k) = true
    · simp [hx]
    · rw [Bool.not_eq_true] at hx
      rw [hx]
      by_cases hk : (kv.1 == k) = true
      · have hkk : kv.1 = k := by simpa using hk
        simp [hk, hkk, h]
      · rw [Bool.not_eq_true] at hk
        simp [hk]

theorem lastOut_not_on {H : Type} (k : String) (h : isOnKey k = false) :
    ∀ (stream : PropsObj H),
      lastOut k stream = (lastWrite k stream).map OutValue.val := by
  intro stream
  induction stream with
  | nil => rfl
  | cons kv xs ih =>
    rw [lastOut, lastWrite, ih]
    cases hlw : lastWrite k xs with
    | some v => rfl
    | none =>
      by_cases hk : (kv.1 == k) = true
      · have hkk : kv.1 = k := by simpa using hk
        simp [hk, hkk, h]
      · simp [hk]

theorem lastWrite_append {A : Type} (k : String) :
    ∀ (xs ys : List (String × A)),
      lastWrite k (xs ++ ys) =
        match lastWrite k ys with
        | some v => some v
        | none => lastWrite k xs := by
  intro xs ys
  induction xs with
  | nil =>
    rw [List.nil_append]
    cases lastWrite k ys <;> rfl
  | cons kv xs ih =>
    rw [List.cons_append, lastWrite, ih, lastWrite]
    cases lastWrite k ys with
    | some v => rfl
    | none => rfl

theorem mergeFold_skip {H : Type} :
    ∀ (streams : List (Option (PropsObj H))) (st : MergeState H),
      streams.foldl
        (fun st p? => match p? with | none => st | some p => processProps st p)
        st =
      (streams.filterMap id).foldl processProps st := by
  intro streams
  induction streams with
  | nil => intro st; rfl
  | cons p? xs ih =>
    intro st
    cases p? with
    | none =>
      rw [List.foldl_cons, List.filterMap_cons]
      exact ih st
    | some p =>
      rw [List.foldl_cons, List.filterMap_cons]
      exact ih (processProps st p)

theorem processProps_flatten {H : Type} (ps : List (PropsObj H))
    (st : MergeState H) :
    ps.foldl processProps st = ps.flatten.foldl processEntry st := by
  rw [List.foldl_flatten]
  rfl

theorem contributedStream_eq {H : Type} (userProps : PropsObj H)
    (propsList : List (Option (PropSet H))) (ek : ElementKey) :
    contributedStream userProps propsList ek =
      ((propsList.filterMap (fun v => v.bind (fun ps => ps.get ek))) ++
        [userProps]).flatten := rfl

theorem streams_filterMap {H : Type} (userProps : PropsObj H)
    (propsList : List (Option (PropSet H))) (ek : ElementKey) :
    (((propsList.map (fun v => v.bind (fun ps => ps.get ek))) ++
        [some userProps]).filterMap id) =
      (propsList.filterMap (fun v => v.bind (fun ps => ps.get ek))) ++
        [userProps] := by
  rw [List.filterMap_append, List.filterMap_map]
  simp

theorem mergeProps_handlerMap {H : Type} (userProps : PropsObj H)
    (propsList : List (Option (PropSet H))) (ek : ElementKey) :
    (mergeProps userProps propsList ek).handlerMap =
      (((propsList.map (fun v => v.bind (fun ps => ps.get ek))) ++
          [some userProps]).foldl
        (fun st p? => match p? with | none => st | some p => processProps st p)
        (⟨[], []⟩ : MergeState H)).map := rfl

theorem mergeProps_entries {H : Type} (userProps : PropsObj H)
    (propsList : List (Option (PropSet H))) (ek : ElementKey) :
    (mergeProps userProps propsList ek).entries =
      ((((propsList.map (fun v => v.bind (fun ps => ps.get ek))) ++
          [some userProps]).foldl
        (fun st p? => match p? with | none => st | some p => processProps st p)
        (⟨[], []⟩ : MergeState H)).acc).foldl
        (fun l kv => setAssoc l kv.1 kv.2)
        (userProps.foldl (fun l kv => setAssoc l kv.1 (.val kv.2))
          (if ek = .floating then [("tabIndex", OutValue.val (.num (-1)))]
            else [])) := rfl

theorem mergeProps_invoke_eq {H : Type} (userProps : PropsObj H)
    (propsList : List (Option (PropSet H))) (ek : ElementKey) (k : String) :
    (mergeProps userProps propsList ek).invoke k =
      onFns k (contributedStream userProps propsList ek) := by
  rw [MergedProps.invoke, mergeProps_handlerMap, mergeFold_skip,
    streams_filterMap, processProps_flatten, ← contributedStream_eq,
    mergeMap_foldl]
  simp [getAssoc_nil]

theorem mergeProps_attr_eq {H : Type} (userProps : PropsObj H)
    (propsList : List (Option (PropSet H))) (ek : ElementKey) (k : String) :
    (mergeProps userProps propsList ek).attr k =
      match lastOut k (contributedStream userProps propsList ek) with
      | some v => some v
      | none =>
        match lastWrite k userProps with
        | some v => some (OutValue.val v)
        | none =>
          if ek = .floating then
            (if ("tabIndex" == k) then some (OutValue.val (.num (-1)))
              else none)
          else none := by
  rw [MergedProps.attr, mergeProps_entries, mergeFold_skip,
    streams_filterMap, processProps_flatten, ← contributedStream_eq,
    getAssoc_foldl_setAssoc_id,
    lastWrite_eq_getAssoc_of_nodup k _
      (processEntry_acc_keys_nodup _ _ (by simp)),
    mergeAcc_foldl]
  cases hlo : lastOut k (contributedStream userProps propsList ek) with
  | some v => rfl
  | none =>
    show getAssoc (userProps.foldl
        (fun l kv => setAssoc l kv.1 (.val kv.2))
        (if ek = .floating then [("tabIndex", OutValue.val (.num (-1)))]
          else [])) k = _
    rw [getAssoc_foldl_setAssoc OutValue.val]
    cases hlw : lastWrite k userProps with
    | some v => rfl
    | none =>
      cases ek with
      | floating =>
        by_cases h : ("tabIndex" == k) = true
        · have heq : "tabIndex" = k := by simpa using h
          simp [getAssoc, List.find?, h, heq]
        · have hne : ¬ ("tabIndex" = k) := by simpa using h
          simp [getAssoc, List.find?, h, hne]
      | reference => rfl
      | item => rfl

theorem contributedStream_split {H : Type} (userProps : PropsObj H)
    (propsList : List (Option (PropSet H))) (ek : ElementKey) :
    contributedStream userProps propsList ek =
      ((propsList.filterMap (fun v => v.bind (fun ps => ps.get ek))).flatten)
        ++ userProps := by
  rw [contributedStream_eq, List.flatten_append]
  simp

/-! ## Claim C2: the merge engine -/

/-- Claim C2.  For every caller-supplied prop object and every ordered list
of contributed prop sets: (1) the merged `on*` dispatcher for a key, when
invoked, calls exactly the contributed handler functions for that key, each
once, in contribution order (contributed prop sets first, in order, then
the caller's); (2) every `on*` key present in the stream is mapped to the
single dispatcher value (never to one contributor's raw handler — nothing
is overwritten or lost); (3) for every other key, later entries overwrite
earlier ones, with the `tabIndex = -1` default of the floating element as
final fallback; and (4) the caller-supplied value takes final precedence:
a caller-supplied non-event entry (e.g. `role`) wins over every internally
computed one. -/
theorem mergeProps_spec_C2 {H : Type} (userProps : PropsObj H)
    (propsList : List (Option (PropSet H))) (ek : ElementKey) (k : String) :
    ((mergeProps userProps propsList ek).invoke k =
      onFns k (contributedStream userProps propsList ek)) ∧
    (isOnKey k = true →
      (mergeProps userProps propsList ek).attr k =
        (if (contributedStream userProps propsList ek).any
            (fun e => e.1 == k) then some OutValue.dispatch else none)) ∧
    (isOnKey k = false →
      (mergeProps userProps propsList ek).attr k =
        match lastWrite k (contributedStream userProps propsList ek) with
        | some v => some (OutValue.val v)
        | none =>
          if ek = .floating ∧ k = "tabIndex" then
            some (OutValue.val (.num (-1)))
          else none) ∧
    (isOnKey k = false → ∀ v : PropValue H, lastWrite k userProps = some v →
      (mergeProps userProps propsList ek).attr k =
        some (OutValue.val v)) := by
  refine ⟨mergeProps_invoke_eq userProps propsList ek k, ?_, ?_, ?_⟩
  · intro hOn
    rw [mergeProps_attr_eq, lastOut_isOn k hOn]
    by_cases hany :
        ((contributedStream userProps propsList ek).any
          (fun e => e.1 == k)) = true
    · simp [hany]
    · rw [Bool.not_eq_true] at hany
      rw [hany]
      simp only [Bool.false_eq_true, if_false]
      have huser : lastWrite k userProps = none := by
        refine lastWrite_none_of_not_mem k userProps ?_
        intro hmem
        obtain ⟨p, hp, hpk⟩ := List.mem_map.mp hmem
        have hpin : p ∈ contributedStream userProps propsList ek := by
          rw [contributedStream_split]
          exact List.mem_append.mpr (Or.inr hp)
        have := List.any_eq_false.mp hany p hpin
        simp [hpk] at this
      rw [huser]
      have hkt : ("tabIndex" == k) = false := by
        simp only [beq_eq_false_iff_ne, ne_eq]
        intro hc
        rw [← hc] at hOn
        exact absurd hOn (by decide)
      cases ek with
      | floating => simp [hkt]
      | reference => rfl
      | item => rfl
  · intro hOff
    rw [mergeProps_attr_eq, lastOut_not_on k hOff]
    cases hls : lastWrite k (contributedStream userProps propsList ek) with
    | some w => rfl
    | none =>
      rw [contributedStream_split, lastWrite_append] at hls
      have huser : lastWrite k userProps = none := by
        cases hu : lastWrite k userProps with
        | none => rfl
        | some v => rw [hu] at hls; exact absurd hls (by simp)
      rw [huser]
      simp only [Option.map_none]
      cases ek with
      | floating =>
        by_cases hkt : ("tabIndex" == k) = true
        · have heq : k = "tabIndex" := by
            have := (beq_iff_eq.mp hkt)
            exact this.symm
          simp [hkt, heq]
        · rw [Bool.not_eq_true] at hkt
          have hne : ¬ (k = "tabIndex") := by
            intro hc
            rw [beq_eq_false_iff_ne] at hkt
            exact hkt hc.symm
          simp [hkt, hne]
      | reference => simp
      | item => simp
  · intro hOff v hv
    rw [mergeProps_attr_eq, lastOut_not_on k hOff]
    have hstream :
        lastWrite k (contributedStream userProps propsList ek) = some v := by
      rw [contributedStream_split, lastWrite_append, hv]
    rw [hstream]
    rfl

/-- Claim C2, witness: two contributed `onClick` handlers and a
caller-supplied one all fire exactly once in contribution order
(`[1, 2, 7]`), and the caller-supplied `role` wins over the internally
computed one. -/
theorem mergeProps_spec_C2_witness :
    (mergeProps userPropsEx [some propsRole, some propsClick]
      .reference).invoke "onClick" = [1, 2, 7] ∧
    (mergeProps userPropsEx [some propsRole, some propsClick]
      .reference).attr "role" = some (.val (.raw "menu")) := by
  constructor
  · exact (mergeProps_spec_C2 userPropsEx [some propsRole, some propsClick]
      ElementKey.reference "onClick").1.trans (by decide)
  · exact (mergeProps_spec_C2 userPropsEx [some propsRole, some propsClick]
      ElementKey.reference "role").2.2.2 (by decide) (.raw "menu") (by decide)
